import Mathlib

/-! memfs storage: path-indexed store and content buffer.

A shallow embedding of `vendor/gopkg.in/src-d/go-billy.v2/memfs/storage.go`.

Conventions of the embedding:

* a Go `string` is a `List Char`, a Go `[]byte` is a `List Nat`;
* Go pointers `*file` are addresses (indices) into an explicit heap of `File`
  records, so that two map entries holding the same pointer alias each other;
* a Go `map` is an association list read with `Map.get`, written with
  `Map.set`, shrunk with `Map.del`; the iteration order of a Go map is
  unspecified, so `Rename` is parameterised by the enumeration order;
* a run-time panic (nil dereference, write into a nil map, slice bounds, a
  slice too long to allocate) is the outcome `Outcome.panic`;
* `int` and `int64` are integers of 64 bits, conversions wrap; the largest slice
  the runtime allocates depends on the platform and is a parameter of
  `content.WriteAt`, memory is otherwise not bounded;
* the recursion `New -> createParent -> New` is driven by a fuel counter, the
  public `New` supplies a fuel derived from the length of the path;
* `path/filepath` (Unix flavour, separator `/`) is modelled after the documented
  behaviour of the Go standard library.
-/

namespace Memfs

/-! ## Outcomes and errors -/

/-- Result of running a Go function: a normal return, a run-time panic, or
exhaustion of the recursion fuel of the model. -/
inductive Outcome (α : Type) where
  | ret (a : α)
  | panic
  | outOfFuel
deriving DecidableEq

/-- Sequencing: run `k` on the value returned, pass a panic on. -/
def Outcome.bind {α β : Type} (o : Outcome α) (k : α → Outcome β) : Outcome β :=
  match o with
  | Outcome.ret a => k a
  | Outcome.panic => Outcome.panic
  | Outcome.outOfFuel => Outcome.outOfFuel

/-- Error kinds surfaced by the package. -/
inductive Err where
  | AlreadyExists (path : List Char)
  | NotExist
  | NotEmpty (path : List Char)
  | EOF
deriving DecidableEq

/-! ## Content buffer -/

/-- The `content` struct: the bytes of one file. -/
structure content where
  bytes : List Nat
deriving DecidableEq

/-- Largest value of Go's `int` and of `int64`; `int` has 64 bits on the
platforms modelled.  The length of a slice is an `int`. -/
def MaxInt : Nat := 2 ^ 63 - 1

/-- The conversion `int(off)` of an `int64` value: a conversion between integer
types wraps into the range of the target, which for a 64-bit `int` keeps every
`int64`. -/
def toInt (x : Int) : Int := (x + 2 ^ 63) % 2 ^ 64 - 2 ^ 63

/-- `make([]byte, n)` on a runtime that allocates slices of at most `lim`
bytes: `n` zero bytes; panics (`makeslice: len out of range`) for a negative
`n` and for an `n` beyond `lim` or beyond `MaxInt`. -/
def makeBytes (lim : Nat) (n : Int) : Outcome (List Nat) :=
  if n < 0 ∨ (lim : Int) < n ∨ (MaxInt : Int) < n then Outcome.panic
  else Outcome.ret (List.replicate n.toNat 0)

/-- `append(a, b...)` on a runtime that allocates slices of at most `lim`
bytes: panics (`growslice: len out of range`) when the length of the result is
beyond `lim` or beyond `MaxInt`. -/
def appendBytes (lim : Nat) (a b : List Nat) : Outcome (List Nat) :=
  if lim < a.length + b.length ∨ MaxInt < a.length + b.length then Outcome.panic
  else Outcome.ret (a ++ b)

/-- `func (c *content) WriteAt(p []byte, off int64) (int, error)`.

Returns the new buffer, the count and the error.  The source leaves the largest
slice to the platform, so it is the parameter `lim` here (the largest
allocation of the Go runtime, which depends on release and platform and is
never above `MaxInt`); memory is otherwise not bounded.  `off` is an `int64`.
`c.bytes[:off]` panics for a negative `off` and for an `off` beyond the slice
(after the growth the slice has at least `off` bytes unless `int(off)` wrapped).
When the slice after the append is shorter than `prev`, the reslice
`c.bytes[:prev]` exposes the old bytes still held by the backing array (the
append wrote in place, since `off + len(p) < prev <= cap`). -/
def content.WriteAt (lim : Nat) (c : content) (p : List Nat) (off : Int) :
    Outcome (content × Nat × Option Err) :=
  let prev := c.bytes.length
  let diff : Int := toInt off - (prev : Int)
  let grown : Outcome (List Nat) :=
    if diff > 0 then (makeBytes lim diff).bind (fun z => appendBytes lim c.bytes z)
    else Outcome.ret c.bytes
  grown.bind (fun b1 =>
    if off < 0 ∨ (b1.length : Int) < off then Outcome.panic
    else
      (appendBytes lim (b1.take off.toNat) p).bind (fun b2 =>
        let b3 := if b2.length < prev then b2 ++ c.bytes.drop b2.length else b2
        Outcome.ret (⟨b3⟩, p.length, none)))

/-- `func (c *content) ReadAt(b []byte, off int64) (int, error)`.

Returns the (unchanged) buffer, the destination after the copy, the count and
the error.  `c.bytes[off:off+l]` panics for a negative `off`. -/
def content.ReadAt (c : content) (b : List Nat) (off : Int) :
    Outcome (content × List Nat × Nat × Option Err) :=
  let size : Int := (c.bytes.length : Int)
  if off ≥ size then Outcome.ret (c, b, 0, some Err.EOF)
  else
    let l0 : Int := (b.length : Int)
    let l : Int := if off + l0 > size then size - off else l0
    if off < 0 then Outcome.panic
    else
      let src := (c.bytes.drop off.toNat).take l.toNat
      let n := min b.length src.length
      Outcome.ret (c, src.take n ++ b.drop n, n, none)

/-! ## `path/filepath` (Unix) -/

/-- Elements of a path between separators: `strings.Split(path, "/")`. -/
def splitSep : List Char → List (List Char)
  | [] => [[]]
  | c :: cs =>
    if c = '/' then [] :: splitSep cs
    else
      match splitSep cs with
      | [] => [[c]]
      | h :: t => (c :: h) :: t

/-- Elements written back with one separator between them. -/
def joinSep : List (List Char) → List Char
  | [] => []
  | [e] => e
  | e :: es => e ++ '/' :: joinSep es

/-- One round of the scanning loop of `filepath.Clean`, element by element.
The state is the output written so far (as elements) and `dotdot`, the number
of leading elements that a `..` may not remove. -/
def cleanStep (rooted : Bool) (st : List (List Char) × Nat) (e : List Char) :
    List (List Char) × Nat :=
  if e = [] then st
  else if e = ['.'] then st
  else if e = ['.', '.'] then
    if st.1.length > st.2 then (st.1.dropLast, st.2)
    else if rooted then st
    else (st.1 ++ [e], st.1.length + 1)
  else (st.1 ++ [e], st.2)

/-- `filepath.Clean`: the shortest path name equivalent to `path` by purely
lexical processing (separators collapsed, `.` dropped, inner `..` resolved,
`..` at the root dropped, the empty path turned into `.`). -/
def Clean (path : List Char) : List Char :=
  if path = [] then ['.']
  else
    let rooted : Bool := path.head? = some '/'
    let out := ((splitSep path).foldl (cleanStep rooted) ([], 0)).1
    if rooted then '/' :: joinSep out
    else if out = [] then ['.']
    else joinSep out

/-- `filepath.Split`: the path up to and including the last separator, and
the rest. -/
def Split (path : List Char) : List Char × List Char :=
  ((path.reverse.dropWhile (fun c => c ≠ '/')).reverse,
   (path.reverse.takeWhile (fun c => c ≠ '/')).reverse)

/-- `filepath.Dir`: all but the last element of the path, cleaned. -/
def Dir (path : List Char) : List Char :=
  Clean (Split path).1

/-- `filepath.Base`: the last element of the path; trailing separators are
removed first, the empty path gives `.`, a path of separators gives `/`. -/
def Base (path : List Char) : List Char :=
  if path = [] then ['.']
  else
    let stripped := (path.reverse.dropWhile (fun c => c = '/')).reverse
    let last := (Split stripped).2
    if last = [] then ['/'] else last

/-- `filepath.HasPrefix`: on Unix a plain `strings.HasPrefix`. -/
def HasPrefix (p pre : List Char) : Bool :=
  pre.isPrefixOf p

/-- `filepath.Join` of two elements: empty elements are ignored, the rest is
joined by a separator and cleaned. -/
def Join (a b : List Char) : List Char :=
  if a ≠ [] then Clean (a ++ '/' :: b)
  else if b ≠ [] then Clean b
  else []

/-- Elements visited by the scanning loop of `filepath.Rel`: the loop stops
at the end of the string, so a final separator opens no further element. -/
def relElems (s : List Char) : List (List Char) :=
  if s = [] then []
  else if s.getLast? = some '/' then (splitSep s).dropLast
  else splitSep s

/-- The lockstep scan of `filepath.Rel`: skips the common leading elements;
the flag tells whether the scan stopped at a pair of differing elements. -/
def relLoop : List (List Char) → List (List Char) →
    List (List Char) × List (List Char) × Bool
  | b :: bs, t :: ts => if t = b then relLoop bs ts else (b :: bs, t :: ts, true)
  | bs, ts => (bs, ts, false)

/-- `filepath.Rel`: a relative path that is lexically equivalent to `targpath`
when joined to `basepath`; the flag is `true` when Go returns an error (and
the empty string). -/
def Rel (basepath targpath : List Char) : List Char × Bool :=
  let base := Clean basepath
  let targ := Clean targpath
  if targ = base then (['.'], false)
  else
    let base := if base = ['.'] then [] else base
    let baseSlashed : Bool := base.head? = some '/'
    let targSlashed : Bool := targ.head? = some '/'
    if baseSlashed ≠ targSlashed then ([], true)
    else
      match relLoop (relElems base) (relElems targ) with
      | (remB, remT, broke) =>
        if broke && remB.head? = some ['.', '.'] then ([], true)
        else if remB ≠ [] then
          let seps := (joinSep remB).count '/'
          let ups := ['.', '.'] ++ (List.replicate seps ['/', '.', '.']).flatten
          (if remT ≠ [] then ups ++ '/' :: joinSep remT else ups, false)
        else (joinSep remT, false)

/-! ## File modes -/

/-- `os.ModeDir`. -/
def ModeDir : Nat := 2 ^ 31

/-- `FileMode.Perm`: the permission bits. -/
def Perm (m : Nat) : Nat := m &&& 0o777

/-- `FileMode.IsDir`. -/
def IsDir (m : Nat) : Bool := m &&& ModeDir != 0

/-! ## Go maps -/

/-- A Go map, as an association list. -/
abbrev Map (κ ν : Type) := List (κ × ν)

/-- Lookup `m[k]` with the comma-ok flag folded into the option. -/
def Map.get {κ ν : Type} [DecidableEq κ] : Map κ ν → κ → Option ν
  | [], _ => none
  | (k1, v) :: m, k => if k1 = k then some v else Map.get m k

/-- The deletion `delete(m, k)`. -/
def Map.del {κ ν : Type} [DecidableEq κ] : Map κ ν → κ → Map κ ν
  | [], _ => []
  | (k1, v) :: m, k => if k1 = k then Map.del m k else (k1, v) :: Map.del m k

/-- The assignment `m[k] = v`. -/
def Map.set {κ ν : Type} [DecidableEq κ] : Map κ ν → κ → ν → Map κ ν
  | [], k, v => [(k, v)]
  | (k1, v1) :: m, k, v => if k1 = k then (k, v) :: Map.del m k else (k1, v1) :: Map.set m k v

/-- The keys of the map, in the order of the list. -/
def Map.keys {κ ν : Type} (m : Map κ ν) : List κ := m.map Prod.fst

/-! ## The store -/

/-- Modelled from the spec: the `file` struct of package `memfs` (declared in a
file of the package outside `storage.go`), reduced to the fields that
`storage.go` reads and writes: the cached base name (`BaseFilename` of the
embedded `billy.BaseFile`, the value returned by `Filename()`), the owned
content buffer, the mode and the open flags. -/
structure File where
  BaseFilename : List Char
  content : content
  mode : Nat
  flag : Int
deriving DecidableEq

/-- A `*file`: an index into the heap of `File` records. -/
abbrev Addr := Nat

/-- The `storage` struct, with the heap its `*file` pointers point into.
A value `none` in `children` is a key that is present with a nil map. -/
structure storage where
  heap : List File
  files : Map (List Char) Addr
  children : Map (List Char) (Option (Map (List Char) Addr))
deriving DecidableEq

/-- `newStorage`. -/
def newStorage : storage :=
  { heap := [], files := [], children := [] }

/-- Modelled from the spec: the constant `separator` of package `memfs`
(declared outside `storage.go`), the path separator `/` as a string. -/
def separator : List Char := ['/']

namespace storage

/-- `func (s *storage) Has(path string) bool`. -/
def Has (s : storage) (path : List Char) : Bool :=
  (s.files.get (Clean path)).isSome

/-- `func (s *storage) Get(path string) (*file, bool)`. -/
def Get (s : storage) (path : List Char) : Option Addr :=
  let path := Clean path
  if !s.Has path then none else s.files.get path

/-- `func (s *storage) MustGet(path string) *file`: panics when `Get` fails. -/
def MustGet (s : storage) (path : List Char) : Outcome Addr :=
  match s.Get path with
  | none => Outcome.panic
  | some f => Outcome.ret f

/-- `func (s *storage) Children(path string) []*file`, in the order of the
model of the inner map. -/
def Children (s : storage) (path : List Char) : List Addr :=
  match s.children.get (Clean path) with
  | some (some m) => m.map Prod.snd
  | _ => []

mutual
/-- `func (s *storage) New(path string, mode os.FileMode, flag int) (*file, error)`
with a fuel counter.  The error of `createParent` is dropped, as in the source. -/
def NewAux : Nat → storage → List Char → Nat → Int →
    Outcome (storage × Option Addr × Option Err)
  | 0, _, _, _, _ => Outcome.outOfFuel
  | n + 1, s, path, mode, flag =>
    let path := Clean path
    if s.Has path then
      match s.MustGet path with
      | Outcome.ret a =>
        match s.heap.get? a with
        | none => Outcome.panic
        | some f =>
          if !IsDir f.mode then Outcome.ret (s, none, some (Err.AlreadyExists path))
          else Outcome.ret (s, none, none)
      | Outcome.panic => Outcome.panic
      | Outcome.outOfFuel => Outcome.outOfFuel
    else
      let f : File :=
        { BaseFilename := Base path, content := ⟨[]⟩, mode := mode, flag := flag }
      let a : Addr := s.heap.length
      let s1 : storage := { s with heap := s.heap ++ [f], files := s.files.set path a }
      match createParentAux n s1 path mode a with
      | Outcome.ret (s2, _) => Outcome.ret (s2, some a, none)
      | Outcome.panic => Outcome.panic
      | Outcome.outOfFuel => Outcome.outOfFuel
/-- `func (s *storage) createParent(path string, mode os.FileMode, f *file) error`
with a fuel counter.  Reading the name through a dangling pointer and writing
into a nil inner map panic. -/
def createParentAux : Nat → storage → List Char → Nat → Addr →
    Outcome (storage × Option Err)
  | 0, _, _, _, _ => Outcome.outOfFuel
  | n + 1, s, path, mode, f =>
    let base := Clean (Dir path)
    match s.heap.get? f with
    | none => Outcome.panic
    | some fr =>
      if fr.BaseFilename = separator then Outcome.ret (s, none)
      else
        match NewAux n s base (Perm mode ||| ModeDir) 0 with
        | Outcome.panic => Outcome.panic
        | Outcome.outOfFuel => Outcome.outOfFuel
        | Outcome.ret (s1, _, some err) => Outcome.ret (s1, some err)
        | Outcome.ret (s1, _, none) =>
          match s1.children.get base with
          | none =>
            let inner : Map (List Char) Addr := Map.set [] fr.BaseFilename f
            Outcome.ret ({ s1 with children := s1.children.set base (some inner) }, none)
          | some none => Outcome.panic
          | some (some m) =>
            let inner : Map (List Char) Addr := m.set fr.BaseFilename f
            Outcome.ret ({ s1 with children := s1.children.set base (some inner) }, none)
end

/-- Fuel that covers the chain of ancestors of a path. -/
def fuelFor (path : List Char) : Nat := 2 * (Clean path).length + 4

/-- `storage.New`, with the fuel supplied. -/
def New (s : storage) (path : List Char) (mode : Nat) (flag : Int) :
    Outcome (storage × Option Addr × Option Err) :=
  NewAux (fuelFor path) s path mode flag

/-- The call `New(path, mode, flag)` made `n` times in a row, with the results
of the calls in order. -/
def NewTimes : Nat → storage → List Char → Nat → Int →
    Outcome (storage × List (Option Addr × Option Err))
  | 0, s, _, _, _ => Outcome.ret (s, [])
  | n + 1, s, path, mode, flag =>
    match s.New path mode flag with
    | Outcome.ret (s1, r, e) =>
      match NewTimes n s1 path mode flag with
      | Outcome.ret (s2, rs) => Outcome.ret (s2, (r, e) :: rs)
      | Outcome.panic => Outcome.panic
      | Outcome.outOfFuel => Outcome.outOfFuel
    | Outcome.panic => Outcome.panic
    | Outcome.outOfFuel => Outcome.outOfFuel

/-- `storage.createParent`, with the fuel supplied. -/
def createParent (s : storage) (path : List Char) (mode : Nat) (f : Addr) :
    Outcome (storage × Option Err) :=
  createParentAux (fuelFor path) s path mode f

/-- `func (s *storage) move(from, to string) error`.  A missing `files[from]`
makes `s.files[to]` nil, and the assignment to its `BaseFilename` panics; a
missing `children[from]` stores a nil map under `to`. -/
def move (s : storage) (pfrom pto : List Char) : Outcome (storage × Option Err) :=
  match s.files.get pfrom with
  | none => Outcome.panic
  | some a =>
    match s.heap.get? a with
    | none => Outcome.panic
    | some fr =>
      let files1 := s.files.set pto a
      let heap1 := s.heap.set a { fr with BaseFilename := Base pto }
      let children1 := s.children.set pto ((s.children.get pfrom).join)
      let children2 := children1.del pfrom
      let files2 := files1.del pfrom
      let s2 : storage := { heap := heap1, files := files2, children := children2 }
      match files2.get pto with
      | none => Outcome.panic
      | some b => createParent s2 pto 0o644 b

/-- The second loop of `Rename`: the moves in order, stopping at the first
error. -/
def runMoves : List (List Char × List Char) → storage → Outcome (storage × Option Err)
  | [], s => Outcome.ret (s, none)
  | (pfrom, pto) :: rest, s =>
    match move s pfrom pto with
    | Outcome.ret (s1, none) => runMoves rest s1
    | other => other

/-- `func (s *storage) Rename(from, to string) error`, where `order` is the
order in which `range s.files` yields the keys. -/
def RenameIn (order : List (List Char)) (s : storage) (pfrom pto : List Char) :
    Outcome (storage × Option Err) :=
  let pfrom := Clean pfrom
  let pto := Clean pto
  if !s.Has pfrom then Outcome.ret (s, some Err.NotExist)
  else
    let descendants := order.filter (fun pathFrom =>
      !(pathFrom = pfrom || !HasPrefix pathFrom pfrom))
    let moves := (pfrom, pto) ::
      descendants.map (fun pathFrom => (pathFrom, Join pto (Rel pfrom pathFrom).1))
    runMoves moves s

/-- `storage.Rename` with the keys enumerated in the order of the model. -/
def Rename (s : storage) (pfrom pto : List Char) : Outcome (storage × Option Err) :=
  RenameIn s.files.keys s pfrom pto

/-- `func (s *storage) Remove(path string) error`. -/
def Remove (s : storage) (path : List Char) : Outcome (storage × Option Err) :=
  let path := Clean path
  match s.Get path with
  | none => Outcome.ret (s, some Err.NotExist)
  | some a =>
    match s.heap.get? a with
    | none => Outcome.panic
    | some f =>
      if IsDir f.mode && ((s.children.get path).join.getD []).length != 0 then
        Outcome.ret (s, some (Err.NotEmpty path))
      else
        let base := Clean (Split path).1
        let file := (Split path).2
        let children1 :=
          match s.children.get base with
          | some (some m) => s.children.set base (some (m.del file))
          | _ => s.children
        Outcome.ret ({ s with files := s.files.del path, children := children1 }, none)

end storage

/-! ## Vocabulary of the proofs -/

/-- A regular path element: non-empty, not `.`, not `..`, free of separators. -/
def Regular (e : List Char) : Prop :=
  e ≠ [] ∧ e ≠ ['.'] ∧ e ≠ ['.', '.'] ∧ '/' ∉ e

/-- The canonical absolute path with the given elements. -/
def render (cs : List (List Char)) : List Char := '/' :: joinSep cs

/-- Shape of the state of the scanning loop: protected `..` elements followed
by regular elements; none of the former when the path is rooted. -/
def CleanInv (r : Bool) (st : List (List Char) × Nat) : Prop :=
  ∃ regs, st.1 = List.replicate st.2 ['.', '.'] ++ regs ∧ (∀ e ∈ regs, Regular e) ∧
    (r = true → st.2 = 0)

namespace storage

/-- State after `New` has created a path and all of its ancestors: `s` is the
store before the call, `cs` the elements of the path. -/
def ChainPost (s s' : storage) (cs : List (List Char)) (mode : Nat) (flag : Int) : Prop :=
  (∃ ext, s'.heap = s.heap ++ ext) ∧
  (∀ pre suf, cs = pre ++ suf →
    s'.files.get (render pre) = some (s.heap.length + suf.length) ∧
    s'.heap.get? (s.heap.length + suf.length) =
      some { BaseFilename := Base (render pre), content := ⟨[]⟩,
             mode := if suf = [] then mode else Perm mode ||| ModeDir,
             flag := if suf = [] then flag else 0 }) ∧
  (∀ pre c suf, cs = pre ++ c :: suf →
    ∃ m : Map (List Char) Addr, s'.children.get (render pre) = some (some m) ∧
      m.get c = some (s.heap.length + suf.length)) ∧
  (∀ q, (∀ pre suf, cs = pre ++ suf → q ≠ render pre) → s'.files.get q = s.files.get q) ∧
  (∀ q, (∀ pre suf, cs = pre ++ suf → suf ≠ [] → q ≠ render pre) →
    s'.children.get q = s.children.get q)

end storage

/-! ## Concrete stores -/

/-- The store after `New("/a", dir)` and `New("/ab", file)`. -/
def siblingStore : storage :=
  { heap := [{ BaseFilename := "a".toList, content := ⟨[]⟩, mode := 0o755 ||| ModeDir, flag := 0 },
             { BaseFilename := "/".toList, content := ⟨[]⟩, mode := 0o755 ||| ModeDir, flag := 0 },
             { BaseFilename := "ab".toList, content := ⟨[]⟩, mode := 0o644, flag := 0 }],
    files := [("/a".toList, 0), ("/".toList, 1), ("/ab".toList, 2)],
    children := [("/".toList, some [("a".toList, 0), ("ab".toList, 2)])] }

/-- The store after `New("/a", file)` and `New("/a/b", file)`. -/
def underFileStore : storage :=
  { heap := [{ BaseFilename := "a".toList, content := ⟨[]⟩, mode := 0o644, flag := 0 },
             { BaseFilename := "/".toList, content := ⟨[]⟩, mode := 0o644 ||| ModeDir, flag := 0 },
             { BaseFilename := "b".toList, content := ⟨[]⟩, mode := 0o644, flag := 0 }],
    files := [("/a".toList, 0), ("/".toList, 1), ("/a/b".toList, 2)],
    children := [("/".toList, some [("a".toList, 0)])] }

/-- The store after `New("/a", dir)`, `Rename("/a", "/b")` and `New("/c", file)`. -/
def nilEntryStore : storage :=
  { heap := [{ BaseFilename := "b".toList, content := ⟨[]⟩, mode := 0o755 ||| ModeDir, flag := 0 },
             { BaseFilename := "/".toList, content := ⟨[]⟩, mode := 0o755 ||| ModeDir, flag := 0 },
             { BaseFilename := "c".toList, content := ⟨[]⟩, mode := 0o644, flag := 0 }],
    files := [("/".toList, 1), ("/b".toList, 0), ("/c".toList, 2)],
    children := [("/".toList, some [("a".toList, 0), ("b".toList, 0), ("c".toList, 2)]),
                 ("/b".toList, none)] }

/-- The store after `New("/a", file)` and `New("/c", file)`. -/
def twoFilesStore : storage :=
  { heap := [{ BaseFilename := "a".toList, content := ⟨[]⟩, mode := 0o644, flag := 0 },
             { BaseFilename := "/".toList, content := ⟨[]⟩, mode := 0o644 ||| ModeDir, flag := 0 },
             { BaseFilename := "c".toList, content := ⟨[]⟩, mode := 0o644, flag := 0 }],
    files := [("/a".toList, 0), ("/".toList, 1), ("/c".toList, 2)],
    children := [("/".toList, some [("a".toList, 0), ("c".toList, 2)])] }

/-- The store after `New("/d/a", file)` and `Rename("/d/a", "/x")`. -/
def staleStore : storage :=
  { heap := [{ BaseFilename := "x".toList, content := ⟨[]⟩, mode := 0o644, flag := 0 },
             { BaseFilename := "d".toList, content := ⟨[]⟩, mode := 0o644 ||| ModeDir, flag := 0 },
             { BaseFilename := "/".toList, content := ⟨[]⟩, mode := 0o644 ||| ModeDir, flag := 0 }],
    files := [("/d".toList, 1), ("/".toList, 2), ("/x".toList, 0)],
    children := [("/".toList, some [("d".toList, 1), ("x".toList, 0)]),
                 ("/d".toList, some [("a".toList, 0)]),
                 ("/x".toList, none)] }

/-- The store after `New("/d/a", file)`. -/
def dirFileStore : storage :=
  { heap := [{ BaseFilename := "a".toList, content := ⟨[]⟩, mode := 0o644, flag := 0 },
             { BaseFilename := "d".toList, content := ⟨[]⟩, mode := 0o644 ||| ModeDir, flag := 0 },
             { BaseFilename := "/".toList, content := ⟨[]⟩, mode := 0o644 ||| ModeDir, flag := 0 }],
    files := [("/d/a".toList, 0), ("/d".toList, 1), ("/".toList, 2)],
    children := [("/".toList, some [("d".toList, 1)]),
                 ("/d".toList, some [("a".toList, 0)])] }

/-- The store after `New("/a/f", file)`, `New("/a/f/x", file)` and
`New("/a/g", file)`. -/
def nestedFileStore : storage :=
  { heap := [{ BaseFilename := "f".toList, content := ⟨[]⟩, mode := 0o644, flag := 0 },
             { BaseFilename := "a".toList, content := ⟨[]⟩, mode := 0o644 ||| ModeDir, flag := 0 },
             { BaseFilename := "/".toList, content := ⟨[]⟩, mode := 0o644 ||| ModeDir, flag := 0 },
             { BaseFilename := "x".toList, content := ⟨[]⟩, mode := 0o644, flag := 0 },
             { BaseFilename := "g".toList, content := ⟨[]⟩, mode := 0o644, flag := 0 }],
    files := [("/a/f".toList, 0), ("/a".toList, 1), ("/".toList, 2), ("/a/f/x".toList, 3),
              ("/a/g".toList, 4)],
    children := [("/".toList, some [("a".toList, 1)]),
                 ("/a".toList, some [("f".toList, 0), ("g".toList, 4)])] }

/-- The store after `New("/a/b/c", file)`. -/
def deepStore : storage :=
  { heap := [{ BaseFilename := "c".toList, content := ⟨[]⟩, mode := 0o644, flag := 0 },
             { BaseFilename := "b".toList, content := ⟨[]⟩, mode := 0o644 ||| ModeDir, flag := 0 },
             { BaseFilename := "a".toList, content := ⟨[]⟩, mode := 0o644 ||| ModeDir, flag := 0 },
             { BaseFilename := "/".toList, content := ⟨[]⟩, mode := 0o644 ||| ModeDir, flag := 0 }],
    files := [("/a/b/c".toList, 0), ("/a/b".toList, 1), ("/a".toList, 2), ("/".toList, 3)],
    children := [("/".toList, some [("a".toList, 2)]),
                 ("/a".toList, some [("b".toList, 1)]),
                 ("/a/b".toList, some [("c".toList, 0)])] }

/-- The store after `New("/a", file)`. -/
def singleFileStore : storage :=
  { heap := [{ BaseFilename := "a".toList, content := ⟨[]⟩, mode := 0o644, flag := 0 },
             { BaseFilename := "/".toList, content := ⟨[]⟩, mode := 0o644 ||| ModeDir, flag := 0 }],
    files := [("/a".toList, 0), ("/".toList, 1)],
    children := [("/".toList, some [("a".toList, 0)])] }

/-- A store whose root is a regular file that is listed, under its own name,
in `children["/"]`. -/
def rootFileStore : storage :=
  { heap := [{ BaseFilename := "/".toList, content := ⟨[]⟩, mode := 0o644, flag := 0 }],
    files := [("/".toList, 0)],
    children := [("/".toList, some [("/".toList, 0)])] }

/-! ## Vocabulary of the later theorems -/

/-- The error returned, when the call returns. -/
def Outcome.errOf {α : Type} : Outcome (α × Option Err) → Option (Option Err)
  | Outcome.ret (_, e) => some e
  | _ => none

/-- The store returned, when the call returns. -/
def Outcome.storeOf {α : Type} : Outcome (storage × α) → Option storage
  | Outcome.ret (s, _) => some s
  | _ => none

/-- The chain of `Dir` steps above a path, up to the fixed point of `Dir`
(`/` or `.`); the counter bounds the number of steps. -/
def ancestors : Nat → List Char → List (List Char)
  | 0, _ => []
  | n + 1, p => if Dir p = p then [] else Dir p :: ancestors n (Dir p)

/-- The proper ancestors of a path. -/
def properAncestors (p : List Char) : List (List Char) := ancestors p.length p

/-- Elements of a canonical relative path: protected `..` elements followed by
regular elements. -/
def RelCanon (out : List (List Char)) : Prop :=
  ∃ k regs, out = List.replicate k ['.', '.'] ++ regs ∧ ∀ e ∈ regs, Regular e

namespace storage

/-- The store in the middle of `move`, after the entries have been copied
under `pto`, the node renamed and the entries under `pfrom` deleted, before
`createParent` runs; `a` is the node at `pfrom` and `fr` its record. -/
def moved (s : storage) (pfrom pto : List Char) (a : Addr) (fr : File) : storage :=
  { heap := s.heap.set a { fr with BaseFilename := Base pto },
    files := (s.files.set pto a).del pfrom,
    children := (s.children.set pto ((s.children.get pfrom).join)).del pfrom }

/-- Every key of `files` or `children` of `s'` that is not a key of `s` is
canonical. -/
def NewKeysCanon (s s' : storage) : Prop :=
  (∀ k, s'.files.get k ≠ none → s.files.get k ≠ none ∨ Clean k = k) ∧
  (∀ k, s'.children.get k ≠ none → s.children.get k ≠ none ∨ Clean k = k)

/-- Every stored node carries the base name of its key, and no node is stored
under two keys. -/
def NameSync (s : storage) : Prop :=
  ∀ Q a, s.files.get Q = some a →
    (∃ f, s.heap.get? a = some f ∧ f.BaseFilename = Base Q) ∧
    (∀ Q2, s.files.get Q2 = some a → Q2 = Q)

/-- Termination of `New` on the canonical path `q`: the call returns or
panics whenever the fuel is at least `k`. -/
def Term (k : Nat) (q : List Char) : Prop :=
  ∀ n, k ≤ n → ∀ (s : storage) (mode : Nat) (flag : Int),
    NewAux n s q mode flag ≠ Outcome.outOfFuel

/-- Stores reachable from the empty store by calls of `New`, `Rename` and
`Remove` that return (with or without an error); `Rename` may enumerate the
keys of `files` in any order. -/
inductive Reachable : storage → Prop where
  | empty : Reachable newStorage
  | new (s s1 : storage) (path : List Char) (mode : Nat) (flag : Int) (r : Option Addr)
      (e : Option Err) : Reachable s → s.New path mode flag = Outcome.ret (s1, r, e) →
      Reachable s1
  | rename (s s1 : storage) (order : List (List Char)) (pfrom pto : List Char)
      (e : Option Err) : Reachable s → order.Perm s.files.keys →
      RenameIn order s pfrom pto = Outcome.ret (s1, e) → Reachable s1
  | remove (s s1 : storage) (path : List Char) (e : Option Err) : Reachable s →
      s.Remove path = Outcome.ret (s1, e) → Reachable s1

end storage

/-! ## Content buffer: theorems -/

theorem MaxInt_eq : MaxInt = 9223372036854775807 := by decide

theorem toInt_eq (x : Int) (h0 : 0 ≤ x) (h1 : x ≤ (MaxInt : Int)) : toInt x = x := by
  unfold toInt
  rw [MaxInt_eq] at h1
  norm_num
  omega

theorem getElem?_take_append (b1 d : List Nat) (off i : Nat) (h : off ≤ b1.length) :
    (b1.take off ++ d)[i]? = if i < off then b1[i]? else d[i - off]? := by
  have htake : (b1.take off).length = off := by simp; omega
  by_cases h1 : i < off
  · rw [if_pos h1, List.getElem?_append_left (by omega), List.getElem?_take_of_lt h1]
  · rw [if_neg h1, List.getElem?_append_right (by omega), htake]

theorem makeBytes_ret (lim : Nat) (n : Nat) (hlim : lim ≤ MaxInt) (h : n ≤ lim) :
    makeBytes lim (n : Int) = Outcome.ret (List.replicate n 0) := by
  unfold makeBytes
  rw [if_neg (by omega), Int.toNat_ofNat]

theorem appendBytes_ret (lim : Nat) (a b : List Nat) (hlim : lim ≤ MaxInt)
    (h : a.length + b.length ≤ lim) : appendBytes lim a b = Outcome.ret (a ++ b) := by
  unfold appendBytes
  rw [if_neg (by omega)]

theorem writeAt_eq (lim : Nat) (c : content) (d : List Nat) (off : Nat)
    (hlim : lim ≤ MaxInt) (h : off + d.length ≤ lim) :
    ∃ bs, c.WriteAt lim d (off : Int) = Outcome.ret (⟨bs⟩, d.length, none) ∧
      ∀ i, bs[i]? =
        if off ≤ i ∧ i < off + d.length then d[i - off]?
        else if i < c.bytes.length then c.bytes[i]?
        else if i < off then some 0 else none := by
  unfold content.WriteAt
  have ht : toInt (off : Int) = (off : Int) := toInt_eq _ (by omega) (by omega)
  simp only [ht]
  by_cases hgrow : ((off : Int) - (c.bytes.length : Int) > 0)
  · have hlt : c.bytes.length < off := by omega
    have hn : (off : Int) - (c.bytes.length : Int) = ((off - c.bytes.length : Nat) : Int) := by
      omega
    rw [if_pos hgrow, hn, makeBytes_ret lim _ hlim (by omega)]
    simp only [Outcome.bind]
    rw [appendBytes_ret lim _ _ hlim (by simp; omega)]
    simp only [Outcome.bind]
    rw [if_neg (by simp; omega), Int.toNat_ofNat,
      appendBytes_ret lim _ _ hlim (by simp; omega)]
    simp only [Outcome.bind]
    refine ⟨_, rfl, ?_⟩
    intro i
    have hb1 : off ≤ (c.bytes ++ List.replicate (off - c.bytes.length) 0).length := by
      simp; omega
    have hlen : (List.take off (c.bytes ++ List.replicate (off - c.bytes.length) 0) ++ d).length
        = off + d.length := by
      simp; omega
    rw [if_neg (by rw [hlen]; omega), getElem?_take_append _ _ _ _ hb1]
    by_cases h1 : i < off
    · rw [if_pos h1, if_neg (by omega)]
      by_cases h2 : i < c.bytes.length
      · rw [List.getElem?_append_left h2, if_pos h2]
      · rw [List.getElem?_append_right (by omega), if_neg h2, if_pos h1,
          List.getElem?_replicate, if_pos (by omega)]
    · rw [if_neg h1]
      by_cases h3 : i < off + d.length
      · rw [if_pos ⟨by omega, h3⟩]
      · rw [if_neg (by omega), if_neg (by omega), if_neg h1]
        exact List.getElem?_eq_none (by omega)
  · have hle : off ≤ c.bytes.length := by omega
    rw [if_neg hgrow]
    simp only [Outcome.bind]
    rw [if_neg (by omega), Int.toNat_ofNat,
      appendBytes_ret lim _ _ hlim (by simp; omega)]
    simp only [Outcome.bind]
    refine ⟨_, rfl, ?_⟩
    intro i
    have hlen : (List.take off c.bytes ++ d).length = off + d.length := by
      simp; omega
    by_cases hshort : off + d.length < c.bytes.length
    · rw [if_pos (by rw [hlen]; exact hshort), hlen]
      by_cases h3 : i < off + d.length
      · rw [List.getElem?_append_left (by rw [hlen]; omega), getElem?_take_append _ _ _ _ hle]
        by_cases h1 : i < off
        · rw [if_pos h1, if_neg (by omega), if_pos (by omega)]
        · rw [if_neg h1, if_pos ⟨by omega, h3⟩]
      · rw [List.getElem?_append_right (by rw [hlen]; omega), hlen]
        rw [List.getElem?_drop, if_neg (by omega)]
        have : off + d.length + (i - (off + d.length)) = i := by omega
        rw [this]
        by_cases h4 : i < c.bytes.length
        · rw [if_pos h4]
        · rw [if_neg h4, if_neg (by omega)]
          exact List.getElem?_eq_none (by omega)
    · rw [if_neg (by rw [hlen]; exact hshort), getElem?_take_append _ _ _ _ hle]
      by_cases h1 : i < off
      · rw [if_pos h1, if_neg (by omega), if_pos (by omega)]
      · rw [if_neg h1]
        by_cases h3 : i < off + d.length
        · rw [if_pos ⟨by omega, h3⟩]
        · rw [if_neg (by omega), if_neg (by omega), if_neg h1]
          exact List.getElem?_eq_none (by omega)

/-- A write whose end lies beyond `MaxInt` or beyond the limit of the runtime
panics. -/
theorem writeAt_overflow (lim : Nat) (c : content) (d : List Nat) (off : Nat)
    (hoff : off ≤ MaxInt) (h : lim < off + d.length ∨ MaxInt < off + d.length) :
    c.WriteAt lim d (off : Int) = Outcome.panic := by
  unfold content.WriteAt
  have ht : toInt (off : Int) = (off : Int) := toInt_eq _ (by omega) (by omega)
  simp only [ht]
  have hlast : ∀ b1 : List Nat, off ≤ b1.length →
      (if (off : Int) < 0 ∨ (b1.length : Int) < (off : Int) then Outcome.panic
        else (appendBytes lim (b1.take (off : Int).toNat) d).bind (fun b2 =>
          Outcome.ret ((⟨if b2.length < c.bytes.length then b2 ++ c.bytes.drop b2.length
            else b2⟩ : content), d.length, (none : Option Err)))) = Outcome.panic := by
    intro b1 hb
    rw [if_neg (by omega), Int.toNat_ofNat]
    have hl : (b1.take off).length = off := by simp; omega
    unfold appendBytes
    rw [if_pos (by rw [hl]; exact h)]
    rfl
  by_cases hgrow : ((off : Int) - (c.bytes.length : Int) > 0)
  · have hn : (off : Int) - (c.bytes.length : Int) = ((off - c.bytes.length : Nat) : Int) := by
      omega
    rw [if_pos hgrow, hn]
    unfold makeBytes
    by_cases hm : ((off - c.bytes.length : Nat) : Int) < 0 ∨
        (lim : Int) < ((off - c.bytes.length : Nat) : Int) ∨
        (MaxInt : Int) < ((off - c.bytes.length : Nat) : Int)
    · rw [if_pos hm]; rfl
    · rw [if_neg hm, Int.toNat_ofNat]
      simp only [Outcome.bind]
      unfold appendBytes
      by_cases ha : lim < c.bytes.length + (List.replicate (off - c.bytes.length) 0).length ∨
          MaxInt < c.bytes.length + (List.replicate (off - c.bytes.length) 0).length
      · rw [if_pos ha]
      · rw [if_neg ha]
        exact hlast _ (by simp; omega)
  · rw [if_neg hgrow]
    exact hlast _ (by omega)

theorem writeAt_length (lim : Nat) (c : content) (d : List Nat) (off : Nat)
    (hlim : lim ≤ MaxInt) (h : off + d.length ≤ lim) :
    ∃ bs, c.WriteAt lim d (off : Int) = Outcome.ret (⟨bs⟩, d.length, none) ∧
      (∀ i, bs[i]? =
        if off ≤ i ∧ i < off + d.length then d[i - off]?
        else if i < c.bytes.length then c.bytes[i]?
        else if i < off then some 0 else none) ∧
      bs.length = max c.bytes.length (off + d.length) := by
  obtain ⟨bs, h, hget⟩ := writeAt_eq lim c d off hlim h
  refine ⟨bs, h, hget, ?_⟩
  apply le_antisymm
  · by_contra hcon
    have hlt : max c.bytes.length (off + d.length) < bs.length := by omega
    have h1 := hget (max c.bytes.length (off + d.length))
    rw [if_neg (by omega), if_neg (by omega), if_neg (by omega)] at h1
    rw [List.getElem?_eq_none_iff] at h1
    omega
  · by_contra hcon
    have hlt : bs.length < max c.bytes.length (off + d.length) := by omega
    have h1 := hget bs.length
    rw [List.getElem?_eq_none (le_refl _)] at h1
    by_cases ha : off ≤ bs.length ∧ bs.length < off + d.length
    · rw [if_pos ha] at h1
      have := List.getElem?_eq_none_iff.mp h1.symm
      omega
    · rw [if_neg ha] at h1
      by_cases hb : bs.length < c.bytes.length
      · rw [if_pos hb] at h1
        have := List.getElem?_eq_none_iff.mp h1.symm
        omega
      · rw [if_neg hb] at h1
        by_cases hc : bs.length < off
        · rw [if_pos hc] at h1; cases h1
        · omega

theorem readAt_eq (c : content) (b : List Nat) (off : Nat) (h : off < c.bytes.length) :
    c.ReadAt b (off : Int) =
      Outcome.ret (c, (c.bytes.drop off).take (min b.length (c.bytes.length - off))
          ++ b.drop (min b.length (c.bytes.length - off)),
        min b.length (c.bytes.length - off), none) := by
  unfold content.ReadAt
  rw [if_neg (by omega)]
  simp only [show ¬ ((off : Int) < 0) from by omega, if_false]
  by_cases hl : (off : Int) + (b.length : Int) > (c.bytes.length : Int)
  · have e1 : ((c.bytes.length : Int) - (off : Int)).toNat = c.bytes.length - off := by omega
    have e2 : min b.length (c.bytes.length - off) = c.bytes.length - off := by omega
    simp only [hl, if_true, e1, Int.toNat_ofNat, e2]
    have e3 : min b.length ((List.take (c.bytes.length - off) (List.drop off c.bytes)).length)
        = c.bytes.length - off := by simp; omega
    rw [e3]
    simp
  · have e2 : min b.length (c.bytes.length - off) = b.length := by omega
    simp only [hl, if_false, Int.toNat_ofNat, e2]
    have e3 : min b.length ((List.take b.length (List.drop off c.bytes)).length)
        = b.length := by simp; omega
    rw [e3]
    simp

theorem readAt_eof (c : content) (b : List Nat) (off : Nat) (h : c.bytes.length ≤ off) :
    c.ReadAt b (off : Int) = Outcome.ret (c, b, 0, some Err.EOF) := by
  unfold content.ReadAt
  rw [if_pos (by omega)]

/-- Reading back a window that holds `d`. -/
theorem readAt_window (c : content) (d dest : List Nat) (o : Nat) (hd : d ≠ [])
    (hlen : dest.length = d.length)
    (hwin : ∀ i, i < d.length → c.bytes[o + i]? = d[i]?) :
    c.ReadAt dest (o : Int) = Outcome.ret (c, d, d.length, none) := by
  have hpos : 0 < d.length := List.length_pos.mpr hd
  have hL : o + d.length ≤ c.bytes.length := by
    by_contra hcon
    have h1 := hwin (d.length - 1) (by omega)
    have h2 : c.bytes[o + (d.length - 1)]? = none := List.getElem?_eq_none (by omega)
    rw [h2] at h1
    have := List.getElem?_eq_none_iff.mp h1.symm
    omega
  rw [readAt_eq c dest o (by omega)]
  have e : min dest.length (c.bytes.length - o) = d.length := by omega
  rw [e, ← hlen, List.drop_length, List.append_nil, hlen]
  have hw : List.take d.length (List.drop o c.bytes) = d := by
    apply List.ext_getElem?
    intro i
    by_cases hi : i < d.length
    · rw [List.getElem?_take_of_lt hi, List.getElem?_drop]
      exact hwin i hi
    · rw [List.getElem?_eq_none (by simp; omega), List.getElem?_eq_none (by omega)]
  rw [hw]


/-- C1: round trip of the content buffer, for writes that fit the runtime.
`lim`, at most `MaxInt = 2^63 - 1`, is the largest slice the runtime allocates,
and the buffer is one of its slices.  After `WriteAt(d1, o1)` and then
`WriteAt(d2, o2)` with non-empty data, offsets `>= 0`, ends `o1 + len(d1)` and
`o2 + len(d2)` at most `lim` and disjoint byte ranges, `ReadAt` into a
destination of length `len(d1)` at `o1` returns `(len(d1), nil)` and the
destination holds `d1`, and likewise `ReadAt` of length `len(d2)` at `o2` gives
`d2`; a read right after the first write gives back `d1` as well, and both
buffers are again slices of the runtime. -/
theorem C1_roundtrip (lim : Nat) (c : content) (d1 d2 dest1 dest2 : List Nat) (o1 o2 : Nat)
    (hlim : lim ≤ MaxInt) (hc : c.bytes.length ≤ lim)
    (hb1 : o1 + d1.length ≤ lim) (hb2 : o2 + d2.length ≤ lim)
    (h1 : d1 ≠ []) (h2 : d2 ≠ [])
    (hdisj : o1 + d1.length ≤ o2 ∨ o2 + d2.length ≤ o1)
    (hl1 : dest1.length = d1.length) (hl2 : dest2.length = d2.length) :
    ∃ c1 c2, c.WriteAt lim d1 (o1 : Int) = Outcome.ret (c1, d1.length, none) ∧
      c1.WriteAt lim d2 (o2 : Int) = Outcome.ret (c2, d2.length, none) ∧
      c2.ReadAt dest1 (o1 : Int) = Outcome.ret (c2, d1, d1.length, none) ∧
      c2.ReadAt dest2 (o2 : Int) = Outcome.ret (c2, d2, d2.length, none) ∧
      c1.ReadAt dest1 (o1 : Int) = Outcome.ret (c1, d1, d1.length, none) ∧
      c1.bytes.length ≤ lim ∧ c2.bytes.length ≤ lim := by
  have hp1 : 0 < d1.length := List.length_pos.mpr h1
  have hp2 : 0 < d2.length := List.length_pos.mpr h2
  obtain ⟨b3, hw1, hg1, hlen1⟩ := writeAt_length lim c d1 o1 hlim hb1
  obtain ⟨b2, hw2, hg2, hlen2⟩ := writeAt_length lim ⟨b3⟩ d2 o2 hlim hb2
  have hwin1 : ∀ i, i < d1.length → b3[o1 + i]? = d1[i]? := by
    intro i hi
    rw [hg1, if_pos ⟨by omega, by omega⟩, Nat.add_sub_cancel_left]
  refine ⟨⟨b3⟩, ⟨b2⟩, hw1, hw2, ?_, ?_, ?_, ?_, ?_⟩
  · apply readAt_window _ d1 dest1 o1 h1 hl1
    intro i hi
    show b2[o1 + i]? = d1[i]?
    rw [hg2, if_neg (by omega)]
    have hin : o1 + i < b3.length := by
      rw [hlen1]; omega
    show (if o1 + i < b3.length then b3[o1 + i]? else _) = _
    rw [if_pos hin]
    exact hwin1 i hi
  · apply readAt_window _ d2 dest2 o2 h2 hl2
    intro i hi
    show b2[o2 + i]? = d2[i]?
    rw [hg2, if_pos ⟨by omega, by omega⟩, Nat.add_sub_cancel_left]
  · exact readAt_window _ d1 dest1 o1 h1 hl1 hwin1
  · show b3.length ≤ lim
    rw [hlen1]; exact max_le hc hb1
  · show b2.length ≤ lim
    rw [hlen2]
    exact max_le (by show b3.length ≤ lim; rw [hlen1]; exact max_le hc hb1) hb2

/-- C1 at the limit `2^48` and the buffer `[1, 2, 3]` with the writes `[7, 8]`
at 1 and `[9]` at 5. -/
theorem C1_roundtrip_witness :
    2 ^ 48 ≤ MaxInt ∧ (content.mk [1, 2, 3]).bytes.length ≤ 2 ^ 48 ∧
    1 + [7, 8].length ≤ 2 ^ 48 ∧ 5 + [9].length ≤ 2 ^ 48 ∧
    ∃ c1 c2, (content.mk [1, 2, 3]).WriteAt (2 ^ 48) [7, 8] ((1 : Nat) : Int)
        = Outcome.ret (c1, [7, 8].length, none) ∧
      c1.WriteAt (2 ^ 48) [9] ((5 : Nat) : Int) = Outcome.ret (c2, [9].length, none) ∧
      c2.ReadAt [0, 0] ((1 : Nat) : Int) = Outcome.ret (c2, [7, 8], [7, 8].length, none) ∧
      c2.ReadAt [0] ((5 : Nat) : Int) = Outcome.ret (c2, [9], [9].length, none) ∧
      c1.ReadAt [0, 0] ((1 : Nat) : Int) = Outcome.ret (c1, [7, 8], [7, 8].length, none) ∧
      c1.bytes.length ≤ 2 ^ 48 ∧ c2.bytes.length ≤ 2 ^ 48 :=
  ⟨by decide, by decide, by decide, by decide,
    C1_roundtrip (2 ^ 48) ⟨[1, 2, 3]⟩ [7, 8] [9] [0, 0] [0] 1 5 (by decide) (by decide)
      (by decide) (by decide) (by decide) (by decide) (by decide) rfl rfl⟩

/-- C1 without the bound: the writes `[7]` at offset `MaxInt = 2^63 - 1` and
`[9]` at offset `0` have non-empty data, offsets `>= 0` and disjoint byte
ranges, and `WriteAt([7], MaxInt)` panics on every buffer, whatever the runtime
allocates, so that no read follows. -/
theorem C1_write_at_last_offset :
    [7] ≠ ([] : List Nat) ∧ [9] ≠ ([] : List Nat) ∧ 0 + [9].length ≤ MaxInt ∧
    ∀ (lim : Nat) (c : content), c.WriteAt lim [7] (MaxInt : Int) = Outcome.panic :=
  ⟨by decide, by decide, by decide,
    fun lim c => writeAt_overflow lim c [7] MaxInt (le_refl _) (Or.inr (by simp))⟩

/-- C2: `lim`, at most `MaxInt = 2^63 - 1`, is the largest slice the runtime
allocates, and the buffer is one of its slices.  `WriteAt(d, off)` with
`off >= 0` and `off + len(d)` at most `lim` returns `(len(d), nil)` and leaves
the buffer with length exactly `max(L, off + len(d))`, so the length never
decreases, and the buffer is again a slice of the runtime. -/
theorem C2_writeAt_length (lim : Nat) (c : content) (d : List Nat) (off : Nat)
    (hlim : lim ≤ MaxInt) (hc : c.bytes.length ≤ lim) (h : off + d.length ≤ lim) :
    ∃ c1, c.WriteAt lim d (off : Int) = Outcome.ret (c1, d.length, none) ∧
      c1.bytes.length = max c.bytes.length (off + d.length) ∧
      c.bytes.length ≤ c1.bytes.length ∧ c1.bytes.length ≤ lim := by
  obtain ⟨bs, hw, -, hlen⟩ := writeAt_length lim c d off hlim h
  exact ⟨⟨bs⟩, hw, hlen, by show c.bytes.length ≤ bs.length; omega,
    by show bs.length ≤ lim; omega⟩

/-- C2 at the limit `2^48`: a write of `[7, 8]` at offset 4 into `[1, 2, 3]`. -/
theorem C2_writeAt_length_witness :
    2 ^ 48 ≤ MaxInt ∧ (content.mk [1, 2, 3]).bytes.length ≤ 2 ^ 48 ∧
    4 + [7, 8].length ≤ 2 ^ 48 ∧
    (∃ c1, (content.mk [1, 2, 3]).WriteAt (2 ^ 48) [7, 8] ((4 : Nat) : Int)
        = Outcome.ret (c1, [7, 8].length, none) ∧
      c1.bytes.length = max (content.mk [1, 2, 3]).bytes.length (4 + [7, 8].length) ∧
      (content.mk [1, 2, 3]).bytes.length ≤ c1.bytes.length ∧ c1.bytes.length ≤ 2 ^ 48) :=
  ⟨by decide, by decide, by decide,
    C2_writeAt_length (2 ^ 48) ⟨[1, 2, 3]⟩ [7, 8] 4 (by decide) (by decide) (by decide)⟩

/-- C2 without the bound: on the empty buffer `WriteAt([9], MaxInt)`, with
`MaxInt = 2^63 - 1` the largest `int64`, panics whatever the runtime allocates:
the length `max(0, MaxInt + 1)` is beyond every slice. -/
theorem C2_length_beyond_max_int :
    MaxInt < max (content.mk []).bytes.length (MaxInt + [9].length) ∧
    ∀ lim : Nat, (content.mk []).WriteAt lim [9] (MaxInt : Int) = Outcome.panic :=
  ⟨by decide, fun lim => writeAt_overflow lim ⟨[]⟩ [9] MaxInt (le_refl _) (Or.inr (by simp))⟩

/-- C3: zero fill, for writes that fit the runtime.  `lim`, at most
`MaxInt = 2^63 - 1`, is the largest slice the runtime allocates.  A write at an
offset beyond the current length `L` with `off + len(d)` at most `lim` leaves
every byte at an index in `[L, off)` equal to `0` and every byte below `L`
unchanged; on a fresh buffer, with `lim` at least 11, `WriteAt([x], 10)`
followed by `ReadAt` of ten bytes at offset `0` returns `(10, nil)` and ten zero
bytes. -/
theorem C3_zero_fill :
    (∀ (lim : Nat) (c : content) (d : List Nat) (off : Nat), lim ≤ MaxInt →
      off + d.length ≤ lim → c.bytes.length < off →
      ∃ c1, c.WriteAt lim d (off : Int) = Outcome.ret (c1, d.length, none) ∧
        (∀ i, c.bytes.length ≤ i → i < off → c1.bytes[i]? = some 0) ∧
        (∀ i, i < c.bytes.length → c1.bytes[i]? = c.bytes[i]?)) ∧
    (∀ (lim x : Nat) (dest : List Nat), lim ≤ MaxInt → 11 ≤ lim → dest.length = 10 →
      ∃ c1, (content.mk []).WriteAt lim [x] 10 = Outcome.ret (c1, 1, none) ∧
        c1.ReadAt dest 0 = Outcome.ret (c1, List.replicate 10 0, 10, none)) := by
  constructor
  · intro lim c d off hlim hfit hoff
    obtain ⟨bs, h, hg⟩ := writeAt_eq lim c d off hlim hfit
    refine ⟨⟨bs⟩, h, ?_, ?_⟩
    · intro i h1 h2
      show bs[i]? = some 0
      rw [hg, if_neg (by omega), if_neg (by omega), if_pos h2]
    · intro i h1
      show bs[i]? = c.bytes[i]?
      rw [hg, if_neg (by omega), if_pos h1]
  · intro lim x dest hlim h11 hdest
    obtain ⟨bs, h, hg⟩ := writeAt_eq lim ⟨[]⟩ [x] 10 hlim (by simpa using h11)
    refine ⟨⟨bs⟩, h, ?_⟩
    have hw := readAt_window ⟨bs⟩ (List.replicate 10 0) dest 0 (by decide)
      (by rw [hdest]; rfl) (by
        intro i hi
        have hi10 : i < 10 := by simpa using hi
        show bs[0 + i]? = (List.replicate 10 0)[i]?
        rw [hg, if_neg (by omega), if_neg (by simp), if_pos (by omega),
          List.getElem?_replicate, if_pos hi10])
    exact hw

/-- C3 at the limit `2^48`: the buffer `[5]` with a write of `[7]` at offset 3,
and the fresh buffer at `x = 9`. -/
theorem C3_zero_fill_witness :
    2 ^ 48 ≤ MaxInt ∧ 3 + [7].length ≤ 2 ^ 48 ∧ (content.mk [5]).bytes.length < 3 ∧
    11 ≤ 2 ^ 48 ∧ (List.replicate 10 4).length = 10 ∧
    (∃ c1, (content.mk [5]).WriteAt (2 ^ 48) [7] ((3 : Nat) : Int)
        = Outcome.ret (c1, [7].length, none) ∧
      (∀ i, (content.mk [5]).bytes.length ≤ i → i < 3 → c1.bytes[i]? = some 0) ∧
      (∀ i, i < (content.mk [5]).bytes.length → c1.bytes[i]? = (content.mk [5]).bytes[i]?)) ∧
    (∃ c1, (content.mk []).WriteAt (2 ^ 48) [9] 10 = Outcome.ret (c1, 1, none) ∧
      c1.ReadAt (List.replicate 10 4) 0 = Outcome.ret (c1, List.replicate 10 0, 10, none)) :=
  ⟨by decide, by decide, by decide, by decide, by decide,
    C3_zero_fill.1 (2 ^ 48) ⟨[5]⟩ [7] 3 (by decide) (by decide) (by decide),
    C3_zero_fill.2 (2 ^ 48) 9 (List.replicate 10 4) (by decide) (by decide) (by decide)⟩

/-- C3 without the bound: on the buffer `[5]` of length 1 the offset
`MaxInt = 2^63 - 1` lies beyond the length, and `WriteAt([7], MaxInt)` panics
whatever the runtime allocates, so that no gap is filled. -/
theorem C3_gap_beyond_max_int :
    (content.mk [5]).bytes.length < MaxInt ∧
    ∀ lim : Nat, (content.mk [5]).WriteAt lim [7] (MaxInt : Int) = Outcome.panic :=
  ⟨by decide, fun lim => writeAt_overflow lim ⟨[5]⟩ [7] MaxInt (le_refl _) (Or.inr (by simp))⟩

/-- C4: `ReadAt(dest, off)` with `off >= 0` returns `io.EOF` exactly when
`off >= L`, and then the count is `0`; otherwise it returns
`n = min(len(dest), L - off)` with no error, the first `n` bytes of `dest` are
bytes `off .. off+n-1` of the buffer, the rest of `dest` and the buffer itself
are unchanged.  `ReadAt(buf, L)` is `(0, EOF)`, and for `L >= 1` and
`len(buf) = 10`, `ReadAt(buf, L-1)` is `(1, nil)`. -/
theorem C4_readAt (c : content) (dest : List Nat) (off : Nat) :
    ((∃ c1 dest1 n, c.ReadAt dest (off : Int) = Outcome.ret (c1, dest1, n, some Err.EOF))
        ↔ c.bytes.length ≤ off) ∧
    (c.bytes.length ≤ off → c.ReadAt dest (off : Int) = Outcome.ret (c, dest, 0, some Err.EOF)) ∧
    (off < c.bytes.length →
      ∃ dest1, c.ReadAt dest (off : Int)
          = Outcome.ret (c, dest1, min dest.length (c.bytes.length - off), none) ∧
        dest1.length = dest.length ∧
        (∀ i, i < min dest.length (c.bytes.length - off) → dest1[i]? = c.bytes[off + i]?) ∧
        (∀ i, min dest.length (c.bytes.length - off) ≤ i → dest1[i]? = dest[i]?)) ∧
    c.ReadAt dest (c.bytes.length : Int) = Outcome.ret (c, dest, 0, some Err.EOF) ∧
    (1 ≤ c.bytes.length → dest.length = 10 →
      ∃ dest1, c.ReadAt dest ((c.bytes.length - 1 : Nat) : Int) = Outcome.ret (c, dest1, 1, none)) := by
  have hlt : off < c.bytes.length →
      ∃ dest1, c.ReadAt dest (off : Int)
          = Outcome.ret (c, dest1, min dest.length (c.bytes.length - off), none) ∧
        dest1.length = dest.length ∧
        (∀ i, i < min dest.length (c.bytes.length - off) → dest1[i]? = c.bytes[off + i]?) ∧
        (∀ i, min dest.length (c.bytes.length - off) ≤ i → dest1[i]? = dest[i]?) := by
    intro h
    refine ⟨_, readAt_eq c dest off h, ?_, ?_, ?_⟩
    · simp
    · intro i hi
      have hl : (List.take (min dest.length (c.bytes.length - off)) (List.drop off c.bytes)).length
          = min dest.length (c.bytes.length - off) := by simp
      rw [List.getElem?_append_left (by rw [hl]; exact hi), List.getElem?_take_of_lt hi,
        List.getElem?_drop]
    · intro i hi
      have hl : (List.take (min dest.length (c.bytes.length - off)) (List.drop off c.bytes)).length
          = min dest.length (c.bytes.length - off) := by simp
      rw [List.getElem?_append_right (by rw [hl]; exact hi), hl, List.getElem?_drop]
      congr 1; omega
  refine ⟨⟨?_, ?_⟩, readAt_eof c dest off, hlt, readAt_eof c dest _ (le_refl _), ?_⟩
  · rintro ⟨c1, dest1, n, h⟩
    by_contra hcon
    obtain ⟨d1, h1, -⟩ := hlt (by omega)
    rw [h1] at h
    simp at h
  · intro h
    exact ⟨c, dest, 0, readAt_eof c dest off h⟩
  · intro h1 h10
    have h := readAt_eq c dest (c.bytes.length - 1) (by omega)
    have e : min dest.length (c.bytes.length - (c.bytes.length - 1)) = 1 := by omega
    rw [e] at h
    exact ⟨_, h⟩

/-- C4 at the buffer `[1, 2, 3]`: a read of ten bytes at offset `L - 1`. -/
theorem C4_readAt_witness :
    1 ≤ (content.mk [1, 2, 3]).bytes.length ∧ (List.replicate 10 0).length = 10 ∧
    ∃ dest1, (content.mk [1, 2, 3]).ReadAt (List.replicate 10 0)
        (((content.mk [1, 2, 3]).bytes.length - 1 : Nat) : Int)
      = Outcome.ret (content.mk [1, 2, 3], dest1, 1, none) :=
  ⟨by decide, by decide,
    (C4_readAt ⟨[1, 2, 3]⟩ (List.replicate 10 0) 0).2.2.2.2 (by decide) (by decide)⟩

/-! ## Paths, maps and the store: lemmas -/

theorem splitSep_ne_nil (s : List Char) : splitSep s ≠ [] := by
  cases s with
  | nil => simp [splitSep]
  | cons c cs =>
    simp only [splitSep]
    split_ifs
    · simp
    · split <;> simp

theorem splitSep_cons_slash (s : List Char) : splitSep ('/' :: s) = [] :: splitSep s := by
  simp [splitSep]

theorem splitSep_cons_ne (c : Char) (s : List Char) (h : c ≠ '/') :
    ∃ e es, splitSep s = e :: es ∧ splitSep (c :: s) = (c :: e) :: es := by
  cases hs : splitSep s with
  | nil => exact absurd hs (splitSep_ne_nil s)
  | cons e es =>
    refine ⟨e, es, rfl, ?_⟩
    simp [splitSep, h, hs]

theorem splitSep_noslash (e : List Char) (h : '/' ∉ e) : splitSep e = [e] := by
  induction e with
  | nil => rfl
  | cons c cs ih =>
    have hc : c ≠ '/' := fun hc => h (by simp [hc])
    have hcs : '/' ∉ cs := fun hm => h (List.mem_cons_of_mem _ hm)
    obtain ⟨e, es, h1, h2⟩ := splitSep_cons_ne c cs hc
    rw [ih hcs] at h1
    cases h1
    exact h2

theorem splitSep_append_slash (a b : List Char) :
    splitSep (a ++ '/' :: b) = splitSep a ++ splitSep b := by
  induction a with
  | nil => simp [splitSep]
  | cons c cs ih =>
    by_cases hc : c = '/'
    · subst hc
      simp [splitSep, ih]
    · obtain ⟨e, es, h1, h2⟩ := splitSep_cons_ne c cs hc
      obtain ⟨e', es', h1', h2'⟩ := splitSep_cons_ne c (cs ++ '/' :: b) hc
      rw [List.cons_append, h2', h2]
      rw [ih, h1] at h1'
      simp at h1'
      obtain ⟨rfl, rfl⟩ := h1'
      simp

theorem mem_splitSep_noslash (s e : List Char) (h : e ∈ splitSep s) : '/' ∉ e := by
  induction s generalizing e with
  | nil => simp [splitSep] at h; subst h; simp
  | cons c cs ih =>
    by_cases hc : c = '/'
    · subst hc
      rw [splitSep_cons_slash] at h
      rcases List.mem_cons.mp h with h | h
      · subst h; simp
      · exact ih e h
    · obtain ⟨e1, es, h1, h2⟩ := splitSep_cons_ne c cs hc
      rw [h2] at h
      rcases List.mem_cons.mp h with h | h
      · subst h
        have := ih e1 (by rw [h1]; simp)
        intro hm
        rcases List.mem_cons.mp hm with hm | hm
        · exact hc hm.symm
        · exact this hm
      · exact ih e (by rw [h1]; exact List.mem_cons_of_mem _ h)

theorem joinSep_cons_cons (e e' : List Char) (es : List (List Char)) :
    joinSep (e :: e' :: es) = e ++ '/' :: joinSep (e' :: es) := rfl

theorem splitSep_joinSep (cs : List (List Char)) (hne : cs ≠ [])
    (h : ∀ c ∈ cs, '/' ∉ c) : splitSep (joinSep cs) = cs := by
  induction cs with
  | nil => exact absurd rfl hne
  | cons e es ih =>
    cases es with
    | nil => exact splitSep_noslash e (h e (by simp))
    | cons e' es' =>
      rw [joinSep_cons_cons, splitSep_append_slash, splitSep_noslash e (h e (by simp)),
        ih (by simp) (fun c hc => h c (List.mem_cons_of_mem _ hc))]
      rfl

theorem joinSep_append_singleton (cs : List (List Char)) (c : List Char) (hne : cs ≠ []) :
    joinSep (cs ++ [c]) = joinSep cs ++ '/' :: c := by
  induction cs with
  | nil => exact absurd rfl hne
  | cons e es ih =>
    cases es with
    | nil => rfl
    | cons e' es' =>
      rw [List.cons_append, List.cons_append, joinSep_cons_cons, ← List.cons_append, ih (by simp),
        joinSep_cons_cons]
      simp

theorem cleanStep_nil (r : Bool) (st : List (List Char) × Nat) : cleanStep r st [] = st := by
  simp [cleanStep]

theorem cleanStep_regular (r : Bool) (st : List (List Char) × Nat) (e : List Char)
    (h : Regular e) : cleanStep r st e = (st.1 ++ [e], st.2) := by
  obtain ⟨h1, h2, h3, -⟩ := h
  simp [cleanStep, h1, h2, h3]

theorem foldl_cleanStep_regular (r : Bool) (es out : List (List Char)) (dd : Nat)
    (h : ∀ e ∈ es, Regular e) :
    es.foldl (cleanStep r) (out, dd) = (out ++ es, dd) := by
  induction es generalizing out with
  | nil => simp
  | cons e es ih =>
    rw [List.foldl_cons, cleanStep_regular r _ e (h e (by simp)),
      ih _ (fun x hx => h x (List.mem_cons_of_mem _ hx))]
    simp

theorem foldl_cleanStep_dotdot (k j : Nat) :
    (List.replicate j ['.', '.']).foldl (cleanStep false) (List.replicate k ['.', '.'], k)
      = (List.replicate (k + j) ['.', '.'], k + j) := by
  induction j generalizing k with
  | zero => simp
  | succ j ih =>
    rw [List.replicate_succ, List.foldl_cons]
    have : cleanStep false (List.replicate k ['.', '.'], k) ['.', '.']
        = (List.replicate (k + 1) ['.', '.'], k + 1) := by
      simp [cleanStep, List.replicate_succ']
    rw [this, ih]
    have e : k + 1 + j = k + (j + 1) := by omega
    rw [e]

theorem cleanStep_inv (r : Bool) (st : List (List Char) × Nat) (e : List Char)
    (he : '/' ∉ e) (h : CleanInv r st) : CleanInv r (cleanStep r st e) := by
  obtain ⟨regs, h1, h2, h3⟩ := h
  unfold cleanStep
  split_ifs with c1 c2 c3 c4 c5
  · exact ⟨regs, h1, h2, h3⟩
  · exact ⟨regs, h1, h2, h3⟩
  · have hne : regs ≠ [] := by
      intro hr
      rw [h1, hr] at c4
      simp at c4
    refine ⟨regs.dropLast, ?_, fun x hx => h2 x (List.dropLast_subset _ hx), h3⟩
    show st.1.dropLast = _
    rw [h1, List.dropLast_append_of_ne_nil _ hne]
  · exact ⟨regs, h1, h2, h3⟩
  · have hr : regs = [] := by
      rw [h1] at c4
      simp at c4
      exact c4
    refine ⟨[], ?_, by simp, fun hh => absurd hh c5⟩
    show st.1 ++ [e] = List.replicate (st.1.length + 1) ['.', '.'] ++ []
    rw [h1, hr, c3]
    simp [List.replicate_succ']
  · refine ⟨regs ++ [e], ?_, ?_, h3⟩
    · show st.1 ++ [e] = _
      rw [h1]; simp
    · intro x hx
      rcases List.mem_append.mp hx with hx | hx
      · exact h2 x hx
      · simp at hx; subst hx
        exact ⟨c1, c2, c3, he⟩

theorem foldl_cleanStep_inv (r : Bool) (es : List (List Char)) (st : List (List Char) × Nat)
    (he : ∀ e ∈ es, '/' ∉ e) (h : CleanInv r st) : CleanInv r (es.foldl (cleanStep r) st) := by
  induction es generalizing st with
  | nil => exact h
  | cons e es ih =>
    rw [List.foldl_cons]
    exact ih _ (fun x hx => he x (List.mem_cons_of_mem _ hx))
      (cleanStep_inv r st e (he e (by simp)) h)

theorem clean_scan_inv (r : Bool) (p : List Char) :
    CleanInv r ((splitSep p).foldl (cleanStep r) ([], 0)) :=
  foldl_cleanStep_inv r _ _ (fun e he => mem_splitSep_noslash p e he) ⟨[], by simp, by simp, fun _ => rfl⟩

theorem Clean_render (cs : List (List Char)) (h : ∀ c ∈ cs, Regular c) :
    Clean (render cs) = render cs := by
  unfold Clean render
  simp only [List.cons_ne_nil, if_false, List.head?_cons, decide_True, if_true, splitSep_cons_slash,
    List.foldl_cons, cleanStep_nil]
  congr 1
  by_cases hcs : cs = []
  · subst hcs; rfl
  · rw [splitSep_joinSep cs hcs (fun c hc => (h c hc).2.2.2), foldl_cleanStep_regular _ _ _ _ h]
    simp

/-- The cleaned form of a rooted path is the rendering of regular elements. -/
theorem Clean_rooted (p : List Char) (h : p.head? = some '/') :
    ∃ cs, (∀ c ∈ cs, Regular c) ∧ Clean p = render cs := by
  have hne : p ≠ [] := by intro hp; subst hp; simp at h
  obtain ⟨regs, h1, h2, h3⟩ := clean_scan_inv true p
  refine ⟨regs, h2, ?_⟩
  unfold Clean render
  simp only [hne, if_false, h, decide_True, if_true]
  rw [h1, h3 rfl]
  simp

theorem joinSep_ne_nil (cs : List (List Char)) (hne : cs ≠ []) (h : ∀ c ∈ cs, c ≠ []) :
    joinSep cs ≠ [] := by
  cases cs with
  | nil => exact absurd rfl hne
  | cons e es =>
    cases es with
    | nil => exact h e (by simp)
    | cons e' es' => rw [joinSep_cons_cons]; simp [h e (by simp)]

theorem joinSep_head (cs : List (List Char)) (hne : cs ≠ [])
    (h : ∀ c ∈ cs, c ≠ [] ∧ '/' ∉ c) : (joinSep cs).head? ≠ some '/' := by
  cases cs with
  | nil => exact absurd rfl hne
  | cons e es =>
    obtain ⟨h1, h2⟩ := h e (by simp)
    cases e with
    | nil => exact absurd rfl h1
    | cons c cs' =>
      have hc : c ≠ '/' := fun hc => h2 (by simp [hc])
      cases es with
      | nil => simp [joinSep]; exact hc
      | cons e' es' => rw [joinSep_cons_cons]; simp; exact hc

/-- `Clean` is idempotent. -/
theorem Clean_idem (p : List Char) : Clean (Clean p) = Clean p := by
  by_cases hp : p = []
  · subst hp; decide
  by_cases hr : p.head? = some '/'
  · obtain ⟨cs, h1, h2⟩ := Clean_rooted p hr
    rw [h2, Clean_render cs h1]
  · obtain ⟨regs, h1, h2, -⟩ := clean_scan_inv false p
    have hC : Clean p = if ((splitSep p).foldl (cleanStep false) ([], 0)).1 = [] then ['.']
        else joinSep ((splitSep p).foldl (cleanStep false) ([], 0)).1 := by
      unfold Clean
      simp only [hp, if_false, hr, decide_False]
      rfl
    generalize (splitSep p).foldl (cleanStep false) ([], 0) = st at h1 hC
    by_cases hout : st.1 = []
    · rw [hC, if_pos hout]; decide
    · rw [hC, if_neg hout]
      have hel : ∀ c ∈ st.1, c ≠ [] ∧ '/' ∉ c := by
        intro c hc
        rw [h1] at hc
        rcases List.mem_append.mp hc with hc | hc
        · rw [List.eq_of_mem_replicate hc]; decide
        · exact ⟨(h2 c hc).1, (h2 c hc).2.2.2⟩
      have hj := joinSep_ne_nil st.1 hout (fun c hc => (hel c hc).1)
      have hh := joinSep_head st.1 hout hel
      unfold Clean
      simp only [hj, if_false, hh, decide_False]
      rw [splitSep_joinSep st.1 hout (fun c hc => (hel c hc).2)]
      have hfold : st.1.foldl (cleanStep false) ([], 0) = (st.1, st.2) := by
        conv_lhs => rw [h1]
        rw [List.foldl_append]
        have := foldl_cleanStep_dotdot 0 st.2
        simp only [List.replicate_zero, Nat.zero_add] at this
        rw [this, foldl_cleanStep_regular _ _ _ _ h2, ← h1]
      rw [hfold]
      simp [hout]

theorem render_snoc (cs : List (List Char)) (c : List Char) :
    render (cs ++ [c]) = (if cs = [] then [] else render cs) ++ '/' :: c := by
  by_cases h : cs = []
  · subst h; simp [render, joinSep]
  · rw [if_neg h]
    unfold render
    rw [joinSep_append_singleton cs c h]
    simp

theorem Split_append_slash (a c : List Char) (h : '/' ∉ c) :
    Split (a ++ '/' :: c) = (a ++ ['/'], c) := by
  unfold Split
  have hr : (a ++ '/' :: c).reverse = c.reverse ++ '/' :: a.reverse := by simp
  rw [hr]
  have hall : ∀ x ∈ c.reverse, (fun ch : Char => decide (ch ≠ '/')) x = true := by
    intro x hx
    simp only [decide_eq_true_eq]
    intro hx'
    subst hx'
    exact h (List.mem_reverse.mp hx)
  rw [List.dropWhile_append_of_pos hall, List.takeWhile_append_of_pos hall]
  simp [List.dropWhile, List.takeWhile]

theorem Dir_render_snoc (cs : List (List Char)) (c : List Char)
    (h : ∀ x ∈ cs, Regular x) (hc : '/' ∉ c) : Dir (render (cs ++ [c])) = render cs := by
  unfold Dir
  rw [render_snoc, Split_append_slash _ _ hc]
  by_cases hcs : cs = []
  · subst hcs
    show Clean ['/'] = render []
    decide
  · simp only [if_neg hcs]
    unfold Clean render
    simp only [List.cons_append, List.cons_ne_nil, if_false, List.head?_cons, decide_True, if_true,
      splitSep_cons_slash, List.foldl_cons, cleanStep_nil]
    congr 1
    rw [splitSep_append_slash, splitSep_joinSep cs hcs (fun x hx => (h x hx).2.2.2),
      List.foldl_append, foldl_cleanStep_regular _ _ _ _ h]
    simp [splitSep, cleanStep_nil]

theorem Base_render_snoc (cs : List (List Char)) (c : List Char)
    (hc : '/' ∉ c) (hne : c ≠ []) : Base (render (cs ++ [c])) = c := by
  rw [render_snoc]
  generalize (if cs = [] then [] else render cs) = a
  unfold Base
  have h1 : a ++ '/' :: c ≠ [] := by simp
  rw [if_neg h1]
  have hr : (a ++ '/' :: c).reverse = c.reverse ++ '/' :: a.reverse := by simp
  obtain ⟨x, xs, hx⟩ := List.exists_cons_of_ne_nil (by simpa using hne : c.reverse ≠ [])
  have hxne : x ≠ '/' := by
    intro hx'
    subst hx'
    exact hc (List.mem_reverse.mp (by rw [hx]; simp))
  have hd : (a ++ '/' :: c).reverse.dropWhile (fun ch => decide (ch = '/'))
      = (a ++ '/' :: c).reverse := by
    rw [hr, hx]
    simp [List.dropWhile, hxne]
  simp only [hd, List.reverse_reverse, Split_append_slash a c hc, hne, if_false]

theorem render_ne_nil (cs : List (List Char)) : render cs ≠ [] := by
  simp [render]

theorem render_head (cs : List (List Char)) : (render cs).head? = some '/' := rfl

/-- The elements of a canonical absolute path are recovered from its text. -/
theorem comps_render (cs : List (List Char)) (h : ∀ c ∈ cs, Regular c) :
    (splitSep (render cs)).filter (fun e => e ≠ []) = cs := by
  unfold render
  rw [splitSep_cons_slash]
  by_cases hcs : cs = []
  · subst hcs; decide
  · rw [splitSep_joinSep cs hcs (fun x hx => (h x hx).2.2.2)]
    simp only [ne_eq, not_true_eq_false, decide_False, Bool.false_eq_true, not_false_eq_true,
      List.filter_cons_of_neg]
    rw [List.filter_eq_self]
    intro x hx
    simpa using (h x hx).1

theorem render_inj (cs ds : List (List Char)) (h1 : ∀ c ∈ cs, Regular c)
    (h2 : ∀ c ∈ ds, Regular c) (h : render cs = render ds) : cs = ds := by
  rw [← comps_render cs h1, ← comps_render ds h2, h]

theorem Base_root : Base ['/'] = ['/'] := by decide

theorem Dir_root : Dir ['/'] = ['/'] := by decide

section MapLemmas
variable {κ ν : Type} [DecidableEq κ]

theorem Map.get_del_self (m : Map κ ν) (k : κ) : (m.del k).get k = none := by
  induction m with
  | nil => rfl
  | cons x m ih =>
    obtain ⟨k1, v⟩ := x
    by_cases h : k1 = k
    · simp [Map.del, h, ih]
    · simp [Map.del, Map.get, h, ih]

theorem Map.get_del_ne (m : Map κ ν) (k k' : κ) (h : k' ≠ k) :
    (m.del k).get k' = m.get k' := by
  induction m with
  | nil => rfl
  | cons x m ih =>
    obtain ⟨k1, v⟩ := x
    by_cases h1 : k1 = k
    · subst h1
      simp only [Map.del, if_true, Map.get]
      rw [ih, if_neg (fun e => h e.symm)]
    · by_cases h2 : k1 = k'
      · subst h2
        simp only [Map.del, if_neg h1, Map.get, if_true]
      · simp only [Map.del, if_neg h1, Map.get, if_neg h2, ih]

theorem Map.get_set_self (m : Map κ ν) (k : κ) (v : ν) : (m.set k v).get k = some v := by
  induction m with
  | nil => simp [Map.set, Map.get]
  | cons x m ih =>
    obtain ⟨k1, v1⟩ := x
    by_cases h : k1 = k
    · simp [Map.set, Map.get, h]
    · simp [Map.set, Map.get, h, ih]

theorem Map.get_set_ne (m : Map κ ν) (k k' : κ) (v : ν) (h : k' ≠ k) :
    (m.set k v).get k' = m.get k' := by
  induction m with
  | nil =>
    simp [Map.set, Map.get]
    intro e
    exact absurd e.symm h
  | cons x m ih =>
    obtain ⟨k1, v1⟩ := x
    by_cases h1 : k1 = k
    · subst h1
      simp only [Map.set, if_true, Map.get]
      rw [if_neg (fun e => h e.symm), if_neg (fun e => h e.symm), Map.get_del_ne m k1 k' h]
    · by_cases h2 : k1 = k'
      · subst h2
        simp only [Map.set, if_neg h1, Map.get, if_true]
      · simp only [Map.set, if_neg h1, Map.get, if_neg h2, ih]

end MapLemmas

namespace storage

theorem Has_clean (s : storage) (p : List Char) : s.Has (Clean p) = (s.files.get (Clean p)).isSome := by
  unfold Has
  rw [Clean_idem]

theorem Get_clean (s : storage) (p : List Char) : s.Get (Clean p) = s.files.get (Clean p) := by
  unfold Get
  simp only [Clean_idem, Has_clean]
  cases h : s.files.get (Clean p) <;> simp

theorem Get_eq (s : storage) (p : List Char) : s.Get p = s.files.get (Clean p) := by
  unfold Get
  simp only [Has_clean]
  cases h : s.files.get (Clean p) <;> simp

/-- `New` on a path that is stored. -/
theorem NewAux_stored (n : Nat) (s : storage) (path : List Char) (mode : Nat) (flag : Int)
    (a : Addr) (f : File) (h1 : s.files.get (Clean path) = some a) (h2 : s.heap.get? a = some f) :
    NewAux (n + 1) s path mode flag =
      if IsDir f.mode then Outcome.ret (s, none, none)
      else Outcome.ret (s, none, some (Err.AlreadyExists (Clean path))) := by
  unfold NewAux
  simp only [Has_clean, h1, Option.isSome_some, if_true, MustGet, Get_clean, h2]
  cases IsDir f.mode <;> simp

/-- `New` on a path that is stored through a dangling pointer. -/
theorem NewAux_dangling (n : Nat) (s : storage) (path : List Char) (mode : Nat) (flag : Int)
    (a : Addr) (h1 : s.files.get (Clean path) = some a) (h2 : s.heap.get? a = none) :
    NewAux (n + 1) s path mode flag = Outcome.panic := by
  unfold NewAux
  simp only [Has_clean, h1, Option.isSome_some, if_true, MustGet, Get_clean, h2]

/-- `New` on a path that is not stored. -/
theorem NewAux_fresh (n : Nat) (s : storage) (path : List Char) (mode : Nat) (flag : Int)
    (h1 : s.files.get (Clean path) = none) :
    NewAux (n + 1) s path mode flag =
      match createParentAux n
        { s with heap := s.heap ++ [{ BaseFilename := Base (Clean path), content := ⟨[]⟩,
                                      mode := mode, flag := flag }],
                 files := s.files.set (Clean path) s.heap.length }
        (Clean path) mode s.heap.length with
      | Outcome.ret (s2, _) => Outcome.ret (s2, some s.heap.length, none)
      | Outcome.panic => Outcome.panic
      | Outcome.outOfFuel => Outcome.outOfFuel := by
  conv_lhs => unfold NewAux
  simp only [Has_clean, h1, Option.isSome_none, Bool.false_eq_true, if_false]

theorem New_no_error_of_fresh (n : Nat) (s : storage) (path : List Char) (mode : Nat) (flag : Int)
    (h1 : s.files.get (Clean path) = none) (s' : storage) (r : Option Addr) (e : Err) :
    NewAux (n + 1) s path mode flag ≠ Outcome.ret (s', r, some e) := by
  rw [NewAux_fresh n s path mode flag h1]
  split <;> simp

end storage

theorem Perm_dir_idem (m : Nat) : Perm (Perm m ||| ModeDir) ||| ModeDir = Perm m ||| ModeDir := by
  unfold Perm ModeDir
  apply Nat.eq_of_testBit_eq
  intro i
  have h511 : (0o777 : Nat) = 2 ^ 9 - 1 := by norm_num
  simp only [Nat.testBit_or, Nat.testBit_and, h511, Nat.testBit_two_pow_sub_one, Nat.testBit_two_pow]
  by_cases h1 : i < 9
  · simp [h1]
  · by_cases h2 : 31 = i
    · simp [h1, h2]
    · simp [h1, h2]

theorem IsDir_dir (m : Nat) : IsDir (m ||| ModeDir) = true := by
  unfold IsDir ModeDir
  simp only [bne_iff_ne, ne_eq]
  intro h
  have h1 := congrArg (fun x => Nat.testBit x 31) h
  simp only [Nat.testBit_and, Nat.testBit_or, Nat.testBit_two_pow, decide_True, Bool.or_true,
    Bool.and_true, Nat.zero_testBit] at h1
  exact Bool.noConfusion h1

theorem snoc_eq_append {α : Type} (init pre suf : List α) (c : α)
    (h : init ++ [c] = pre ++ suf) :
    (suf = [] ∧ pre = init ++ [c]) ∨ ∃ suf', suf = suf' ++ [c] ∧ init = pre ++ suf' := by
  rcases List.eq_nil_or_concat suf with hs | ⟨L, b, hs⟩
  · left
    subst hs
    exact ⟨rfl, by simpa using h.symm⟩
  · right
    subst hs
    rw [List.concat_eq_append, ← List.append_assoc] at h
    rw [List.concat_eq_append]
    have := List.append_inj' h rfl
    obtain ⟨h1, h2⟩ := this
    simp at h2
    subst h2
    exact ⟨L, rfl, h1⟩

theorem render_ne_of_proper (pre suf : List (List Char)) (h : ∀ c ∈ pre ++ suf, Regular c)
    (hs : suf ≠ []) : render pre ≠ render (pre ++ suf) := by
  intro e
  have := render_inj pre (pre ++ suf) (fun c hc => h c (List.mem_append_left _ hc)) h e
  have h2 : pre ++ [] = pre ++ suf := by simpa using this
  exact hs (List.append_cancel_left h2).symm

theorem Map.mem_values_of_get {κ ν : Type} [DecidableEq κ] (m : Map κ ν) (k : κ) (v : ν)
    (h : m.get k = some v) : v ∈ m.map Prod.snd := by
  induction m with
  | nil => simp [Map.get] at h
  | cons x m ih =>
    obtain ⟨k1, v1⟩ := x
    by_cases h1 : k1 = k
    · simp [Map.get, h1] at h
      subst h
      simp
    · simp only [Map.get, if_neg h1] at h
      exact List.mem_cons_of_mem _ (ih h)

namespace storage

/-- `createParent` on the root node. -/
theorem createParentAux_root (n : Nat) (s : storage) (path : List Char) (mode : Nat) (f : Addr)
    (fr : File) (h1 : s.heap.get? f = some fr) (h2 : fr.BaseFilename = separator) :
    createParentAux (n + 1) s path mode f = Outcome.ret (s, none) := by
  unfold createParentAux
  simp only [h1, h2, if_true]

/-- `createParent` when the parent is created without error. -/
theorem createParentAux_ok (n : Nat) (s s1 : storage) (path : List Char) (mode : Nat) (f : Addr)
    (fr : File) (r : Option Addr) (h1 : s.heap.get? f = some fr)
    (h2 : fr.BaseFilename ≠ separator)
    (h3 : NewAux n s (Clean (Dir path)) (Perm mode ||| ModeDir) 0 = Outcome.ret (s1, r, none))
    (h4 : s1.children.get (Clean (Dir path)) ≠ some none) :
    ∃ inner : Map (List Char) Addr, inner.get fr.BaseFilename = some f ∧
      createParentAux (n + 1) s path mode f =
        Outcome.ret ({ s1 with children := s1.children.set (Clean (Dir path)) (some inner) }, none) := by
  unfold createParentAux
  simp only [h1, h2, if_false, h3]
  cases hc : s1.children.get (Clean (Dir path)) with
  | none =>
    exact ⟨Map.set [] fr.BaseFilename f, Map.get_set_self _ _ _, rfl⟩
  | some o =>
    cases o with
    | none => exact absurd hc h4
    | some m => exact ⟨m.set fr.BaseFilename f, Map.get_set_self _ _ _, rfl⟩

theorem NewAux_chain (cs : List (List Char)) :
    (∀ c ∈ cs, Regular c) → ∀ (fuel : Nat) (s : storage) (mode : Nat) (flag : Int),
    2 * cs.length + 2 ≤ fuel →
    (∀ pre suf, cs = pre ++ suf → s.files.get (render pre) = none) →
    (∀ pre suf, cs = pre ++ suf → suf ≠ [] → s.children.get (render pre) ≠ some none) →
    ∃ s', NewAux fuel s (render cs) mode flag = Outcome.ret (s', some s.heap.length, none) ∧
      ChainPost s s' cs mode flag := by
  induction cs using List.reverseRecOn with
  | nil =>
    intro _ fuel s mode flag hfuel hfiles _
    obtain ⟨n, rfl⟩ : ∃ n, fuel = n + 2 := ⟨fuel - 2, by simp at hfuel; omega⟩
    have hC : Clean (render []) = render [] := Clean_render [] (by simp)
    have hfresh : s.files.get (Clean (render [])) = none := by
      rw [hC]; exact hfiles [] [] rfl
    rw [NewAux_fresh (n + 1) s _ mode flag hfresh, hC]
    rw [createParentAux_root n _ _ mode s.heap.length
      { BaseFilename := Base (render []), content := ⟨[]⟩, mode := mode, flag := flag }
      (by simp) (Base_root : Base (render []) = separator)]
    refine ⟨_, rfl, ⟨_, rfl⟩, ?_, ?_, ?_, ?_⟩
    · intro pre suf h
      have h1 : pre = [] := (List.append_eq_nil.mp h.symm).1
      have h2 : suf = [] := (List.append_eq_nil.mp h.symm).2
      subst h1 h2
      exact ⟨Map.get_set_self _ _ _, by simp⟩
    · intro pre c suf h
      exact absurd h.symm (by simp)
    · intro q hq
      exact Map.get_set_ne _ _ _ _ (hq [] [] rfl)
    · intro q _
      rfl
  | append_singleton init c ih =>
    intro hreg fuel s mode flag hfuel hfiles hchild
    have hreg' : ∀ x ∈ init, Regular x := fun x hx => hreg x (List.mem_append_left _ hx)
    have hc : Regular c := hreg c (by simp)
    obtain ⟨n, rfl⟩ : ∃ n, fuel = n + 2 := ⟨fuel - 2, by simp at hfuel; omega⟩
    have hn : 2 * init.length + 2 ≤ n := by simp at hfuel; omega
    have hC : Clean (render (init ++ [c])) = render (init ++ [c]) := Clean_render _ hreg
    have hD : Clean (Dir (render (init ++ [c]))) = render init := by
      rw [Dir_render_snoc init c hreg' hc.2.2.2, Clean_render init hreg']
    have hB : Base (render (init ++ [c])) = c := Base_render_snoc init c hc.2.2.2 hc.1
    have hfresh : s.files.get (Clean (render (init ++ [c]))) = none := by
      rw [hC]; exact hfiles (init ++ [c]) [] (by simp)
    -- prefixes of `init` render to paths other than the path itself
    have hne : ∀ pre suf, init = pre ++ suf → render pre ≠ render (init ++ [c]) := by
      intro pre suf h
      have := render_ne_of_proper pre (suf ++ [c])
        (by rw [← List.append_assoc, ← h]; exact hreg) (by simp)
      rwa [← List.append_assoc, ← h] at this
    rw [NewAux_fresh (n + 1) s _ mode flag hfresh, hC, hB]
    set f : File := { BaseFilename := c, content := ⟨[]⟩, mode := mode, flag := flag } with hf
    set s1 : storage :=
      { s with heap := s.heap ++ [f], files := s.files.set (render (init ++ [c])) s.heap.length }
      with hs1
    have hlen1 : s1.heap.length = s.heap.length + 1 := by simp [hs1]
    obtain ⟨s2, hnew, ⟨ext, hheap⟩, hP2, hP4, hP3, hP5⟩ :=
      ih hreg' n s1 (Perm mode ||| ModeDir) 0 hn
        (by
          intro pre suf h
          show (s.files.set (render (init ++ [c])) s.heap.length).get (render pre) = none
          rw [Map.get_set_ne _ _ _ _ (hne pre suf h)]
          exact hfiles pre (suf ++ [c]) (by rw [h]; simp))
        (by
          intro pre suf h hs
          exact hchild pre (suf ++ [c]) (by rw [h]; simp) (by simp))
    have hch : s2.children.get (Clean (Dir (render (init ++ [c])))) ≠ some none := by
      rw [hD, hP5 (render init)]
      · exact hchild init [c] rfl (by simp)
      · intro pre suf h hs
        rw [h]
        exact (render_ne_of_proper pre suf (by rw [← h]; exact hreg') hs).symm
    have hsep : f.BaseFilename ≠ separator := by
      intro h
      have h' : c = ['/'] := h
      exact hc.2.2.2 (by rw [h']; simp)
    obtain ⟨inner, hinner, hcp⟩ := createParentAux_ok n s1 s2 (render (init ++ [c])) mode
      s.heap.length f (some s1.heap.length) (by simp [hs1]) hsep (by rw [hD]; exact hnew) hch
    rw [hcp, hD]
    refine ⟨_, rfl, ⟨[f] ++ ext, ?_⟩, ?_, ?_, ?_, ?_⟩
    · show s2.heap = s.heap ++ ([f] ++ ext)
      rw [hheap, hs1]; simp
    · intro pre suf h
      rcases snoc_eq_append init pre suf c h with ⟨h1, h2⟩ | ⟨suf', h1, h2⟩
      · subst h1 h2
        constructor
        · show s2.files.get (render (init ++ [c])) = _
          rw [hP3 _ (fun pre suf h => (hne pre suf h).symm)]
          exact Map.get_set_self _ _ _
        · show s2.heap.get? _ = _
          rw [hheap, hB]
          simp only [List.get?_eq_getElem?, List.length_nil, Nat.add_zero, if_true]
          show ((s.heap ++ [f]) ++ ext)[s.heap.length]? = some f
          rw [List.append_assoc, List.getElem?_append_right (le_refl _)]
          simp
      · subst h1
        obtain ⟨g1, g2⟩ := hP2 pre suf' h2
        constructor
        · show s2.files.get (render pre) = _
          rw [g1, hlen1]
          simp; omega
        · show s2.heap.get? _ = _
          have e : s.heap.length + (suf' ++ [c]).length = s1.heap.length + suf'.length := by
            rw [hlen1]; simp; omega
          rw [e, g2, Perm_dir_idem]
          simp
    · intro pre x suf h
      rcases snoc_eq_append init pre (x :: suf) c h with ⟨h1, _⟩ | ⟨suf', h1, h2⟩
      · exact absurd h1 (by simp)
      · rcases List.eq_nil_or_concat suf' with hs | ⟨L, b, hs⟩
        · subst hs
          simp at h1
          obtain ⟨rfl, rfl⟩ := h1
          simp at h2
          subst h2
          refine ⟨inner, Map.get_set_self _ _ _, ?_⟩
          simpa using hinner
        · subst hs
          rw [List.concat_eq_append] at h1 h2
          have h3 : x :: suf = (L ++ [b]) ++ [c] := h1
          cases L with
          | nil =>
            simp at h3
            obtain ⟨rfl, rfl⟩ := h3
            obtain ⟨m, g1, g2⟩ := hP4 pre x [] (by simpa using h2)
            refine ⟨m, ?_, ?_⟩
            · show (s2.children.set (render init) (some inner)).get (render pre) = _
              rw [Map.get_set_ne _ _ _ _ (by
                rw [h2]
                exact render_ne_of_proper pre _ (by rw [← h2]; exact hreg') (by simp))]
              exact g1
            · rw [g2, hlen1]; simp
          | cons y L' =>
            simp at h3
            obtain ⟨rfl, h3⟩ := h3
            subst h3
            obtain ⟨m, g1, g2⟩ := hP4 pre x (L' ++ [b]) (by simpa using h2)
            refine ⟨m, ?_, ?_⟩
            · show (s2.children.set (render init) (some inner)).get (render pre) = _
              rw [Map.get_set_ne _ _ _ _ (by
                rw [h2]
                exact render_ne_of_proper pre _ (by rw [← h2]; exact hreg') (by simp))]
              exact g1
            · rw [g2, hlen1]; simp; omega
    · intro q hq
      show s2.files.get q = _
      rw [hP3 q (fun pre suf h => hq pre (suf ++ [c]) (by rw [h]; simp))]
      exact Map.get_set_ne _ _ _ _ (hq (init ++ [c]) [] (by simp))
    · intro q hq
      show (s2.children.set (render init) (some inner)).get q = _
      rw [Map.get_set_ne _ _ _ _ (hq init [c] rfl (by simp))]
      exact hP5 q (fun pre suf h hs => hq pre (suf ++ [c]) (by rw [h]; simp) (by simp))

end storage

theorem length_le_joinSep (cs : List (List Char)) : cs.length ≤ (joinSep cs).length + 1 := by
  induction cs with
  | nil => simp
  | cons e es ih =>
    cases es with
    | nil => simp [joinSep]
    | cons e' es' =>
      rw [joinSep_cons_cons]
      simp only [List.length_cons, List.length_append] at ih ⊢
      omega

theorem length_le_render (cs : List (List Char)) : cs.length ≤ (render cs).length := by
  have := length_le_joinSep cs
  simpa [render] using this

theorem Dir_iter_render (k : Nat) : ∀ (cs : List (List Char)), (∀ c ∈ cs, Regular c) →
    Dir^[k] (render cs) = render (cs.take (cs.length - k)) := by
  induction k with
  | zero => intro cs _; simp
  | succ k ih =>
    intro cs hreg
    rw [Function.iterate_succ_apply]
    rcases List.eq_nil_or_concat cs with h | ⟨init, c, h⟩
    · subst h
      have : Dir (render []) = render [] := Dir_root
      rw [this, ih [] (by simp)]
      simp
    · rw [List.concat_eq_append] at h
      subst h
      have hreg' : ∀ x ∈ init, Regular x := fun x hx => hreg x (List.mem_append_left _ hx)
      rw [Dir_render_snoc init c hreg' (hreg c (by simp)).2.2.2, ih init hreg']
      congr 1
      have e : (init ++ [c]).length - (k + 1) = init.length - k := by simp
      rw [e, List.take_append_of_le_length (by omega)]

namespace storage

theorem NewAux_clean (fuel : Nat) (s : storage) (path : List Char) (mode : Nat) (flag : Int) :
    NewAux fuel s path mode flag = NewAux fuel s (Clean path) mode flag := by
  cases fuel with
  | zero => rfl
  | succ n =>
    unfold NewAux
    simp only [Clean_idem]

theorem Has_eq (s : storage) (p : List Char) : s.Has p = (s.files.get (Clean p)).isSome := rfl

theorem Children_render (s : storage) (cs : List (List Char)) (h : ∀ c ∈ cs, Regular c)
    (m : Map (List Char) Addr) (hm : s.children.get (render cs) = some (some m)) :
    s.Children (render cs) = m.map Prod.snd := by
  unfold Children
  rw [Clean_render cs h, hm]

end storage

/-- C6, read on the canonical form of the path: ancestor auto-creation on a
fresh store.  For every path `P`
that begins with the separator and whose canonical form `Clean(P)` is not the
root, `New(P, mode, flag)` on the empty store returns a node whose base name is
`Base(Clean(P))`, with the given mode and flags and empty content; `Get(P)`
returns that node; every proper ancestor of `Clean(P)` (every `Dir` step, up to
the root) satisfies `Has` and has mode exactly `Perm(mode) | ModeDir`; and every
node on the chain from `Clean(P)` up to, but excluding, the root carries the
base name of its path and is listed by `Children` of its parent path. -/
theorem C6_new_fresh_ancestors (P : List Char) (mode : Nat) (flag : Int)
    (habs : P.head? = some '/') (hroot : Clean P ≠ ['/']) :
    ∃ s a, newStorage.New P mode flag = Outcome.ret (s, some a, none) ∧
      s.heap.get? a =
        some { BaseFilename := Base (Clean P), content := ⟨[]⟩, mode := mode, flag := flag } ∧
      s.Get P = some a ∧
      (∀ k, 1 ≤ k → s.Has (Dir^[k] (Clean P)) = true ∧
        ∃ b f, s.Get (Dir^[k] (Clean P)) = some b ∧ s.heap.get? b = some f ∧
          f.mode = Perm mode ||| ModeDir) ∧
      (∀ k, Dir^[k] (Clean P) ≠ ['/'] →
        ∃ b f, s.Get (Dir^[k] (Clean P)) = some b ∧ s.heap.get? b = some f ∧
          f.BaseFilename = Base (Dir^[k] (Clean P)) ∧
          b ∈ s.Children (Dir^[k + 1] (Clean P))) := by
  obtain ⟨cs, hreg, hcl⟩ := Clean_rooted P habs
  have hfuel : 2 * cs.length + 2 ≤ storage.fuelFor P := by
    unfold storage.fuelFor
    rw [hcl]
    have := length_le_render cs
    omega
  obtain ⟨s, hnew, -, hP2, hP4, -, -⟩ :=
    storage.NewAux_chain cs hreg (storage.fuelFor P) newStorage mode flag hfuel
      (fun _ _ _ => rfl) (fun _ _ _ _ => by simp [newStorage, Map.get])
  have hzero : newStorage.heap.length = 0 := rfl
  simp only [hzero, Nat.zero_add] at hnew hP2 hP4
  refine ⟨s, 0, ?_, ?_, ?_, ?_, ?_⟩
  · unfold storage.New
    rw [storage.NewAux_clean, hcl]
    exact hnew
  · have := (hP2 cs [] (by simp)).2
    simpa [hcl] using this
  · rw [storage.Get_eq, hcl]
    exact (hP2 cs [] (by simp)).1
  · intro k hk
    rw [hcl, Dir_iter_render k cs hreg]
    have hcs : cs ≠ [] := by
      intro h
      subst h
      exact hroot hcl
    have hlen : 0 < cs.length := List.length_pos.mpr hcs
    have hsuf : cs.drop (cs.length - k) ≠ [] := by
      intro h
      have := congrArg List.length h
      simp at this
      omega
    obtain ⟨g1, g2⟩ := hP2 (cs.take (cs.length - k)) (cs.drop (cs.length - k))
      (List.take_append_drop _ _).symm
    have hregp : ∀ c ∈ cs.take (cs.length - k), Regular c :=
      fun c hc => hreg c (List.mem_of_mem_take hc)
    refine ⟨?_, _, _, ?_, g2, ?_⟩
    · rw [storage.Has_eq, Clean_render _ hregp, g1]; rfl
    · rw [storage.Get_eq, Clean_render _ hregp, g1]
    · simp [hsuf]
  · intro k hk
    rw [Function.iterate_succ_apply', hcl, Dir_iter_render k cs hreg] at *
    have hregp : ∀ c ∈ cs.take (cs.length - k), Regular c :=
      fun c hc => hreg c (List.mem_of_mem_take hc)
    rcases List.eq_nil_or_concat (cs.take (cs.length - k)) with h | ⟨pre, x, h⟩
    · rw [h] at hk
      exact absurd rfl hk
    · rw [List.concat_eq_append] at h
      rw [h] at hregp hk ⊢
      have hdec : cs = pre ++ x :: cs.drop (cs.length - k) := by
        conv_lhs => rw [← List.take_append_drop (cs.length - k) cs, h]
        simp
      have hregpre : ∀ c ∈ pre, Regular c := fun c hc => hregp c (List.mem_append_left _ hc)
      obtain ⟨g1, g2⟩ := hP2 (pre ++ [x]) (cs.drop (cs.length - k)) (by
        conv_lhs => rw [hdec]
        simp)
      obtain ⟨m, g3, g4⟩ := hP4 pre x (cs.drop (cs.length - k)) hdec
      refine ⟨_, _, ?_, g2, rfl, ?_⟩
      · rw [storage.Get_eq, Clean_render _ hregp, g1]
      · rw [Dir_render_snoc pre x hregpre (hregp x (by simp)).2.2.2,
          storage.Children_render s pre hregpre m g3]
        exact Map.mem_values_of_get m x _ g4

theorem fuelFor_succ (path : List Char) : ∃ n, storage.fuelFor path = n + 1 :=
  ⟨2 * (Clean path).length + 3, rfl⟩

/-- C6 at `P = "/a/b/c.txt"`, the example of the specification. -/
theorem C6_new_fresh_ancestors_witness :
    ∃ s a, newStorage.New "/a/b/c.txt".toList 0o644 0 = Outcome.ret (s, some a, none) ∧
      s.Has "/a".toList = true ∧ s.Has "/a/b".toList = true ∧
      (∃ b, s.Get "/a/b".toList = some b ∧ b ∈ s.Children "/a".toList) ∧
      s.Get "/a/b/c.txt".toList = some a ∧ a ∈ s.Children "/a/b".toList := by
  obtain ⟨s, a, h1, -, h3, h4, h5⟩ :=
    C6_new_fresh_ancestors "/a/b/c.txt".toList 0o644 0 (by decide) (by decide)
  have e0 : Clean "/a/b/c.txt".toList = "/a/b/c.txt".toList := by decide
  have e1 : Dir "/a/b/c.txt".toList = "/a/b".toList := by decide
  have e2 : Dir "/a/b".toList = "/a".toList := by decide
  have k1 := h4 1 (by decide)
  have k2 := h4 2 (by decide)
  have c0 := h5 0
  have c1 := h5 1
  simp only [Function.iterate_succ, Function.iterate_zero, Function.comp_apply, id_eq, e0, e1,
    e2] at k1 k2 c0 c1
  obtain ⟨b0, -, g1, -, -, g2⟩ := c0 (by decide)
  obtain ⟨b1, -, g3, -, -, g4⟩ := c1 (by decide)
  rw [h3] at g1
  injection g1 with g1
  subst g1
  exact ⟨s, a, h1, k2.1, k1.1, ⟨b1, g3, g4⟩, h3, g2⟩

/-- C7: idempotent directory creation.  When a directory node is stored at
the canonical form of `path`, `New(path, mode, flag)` returns `(nil, nil)` for
every mode and flag and leaves the store (files, children, nodes) unchanged,
so any number of such calls in a row all give `(nil, nil)`. -/
theorem C7_new_directory_idempotent (s : storage) (path : List Char) (mode : Nat) (flag : Int)
    (a : Addr) (f : File) (h1 : s.files.get (Clean path) = some a)
    (h2 : s.heap.get? a = some f) (h3 : IsDir f.mode = true) :
    s.New path mode flag = Outcome.ret (s, none, none) ∧
    ∀ n, s.NewTimes n path mode flag = Outcome.ret (s, List.replicate n (none, none)) := by
  have hnew : s.New path mode flag = Outcome.ret (s, none, none) := by
    obtain ⟨n, hn⟩ := fuelFor_succ path
    unfold storage.New
    rw [hn, storage.NewAux_stored n s path mode flag a f h1 h2, if_pos h3]
  refine ⟨hnew, ?_⟩
  intro n
  induction n with
  | zero => rfl
  | succ n ih =>
    unfold storage.NewTimes
    rw [hnew]
    simp only [ih]
    rfl

/-- C7 at the directory `/a` of `siblingStore`, addressed as `/a//`. -/
theorem C7_new_directory_idempotent_witness :
    siblingStore.files.get (Clean "/a//".toList) = some 0 ∧
    siblingStore.New "/a//".toList 0o644 7 = Outcome.ret (siblingStore, none, none) ∧
    ∀ n, siblingStore.NewTimes n "/a//".toList 0o644 7
      = Outcome.ret (siblingStore, List.replicate n (none, none)) :=
  ⟨by decide,
    C7_new_directory_idempotent siblingStore "/a//".toList 0o644 7 0
      { BaseFilename := "a".toList, content := ⟨[]⟩, mode := 0o755 ||| ModeDir, flag := 0 }
      (by decide) (by decide) (by decide)⟩

/-- C8: non-directory collision.  `New(path, mode, flag)` returns an error if
and only if a node whose mode lacks the directory bit is stored at the
canonical path; in that case the error is the already-exists error for that
path, no node is returned and the store is unchanged. -/
theorem C8_new_collision (s : storage) (path : List Char) (mode : Nat) (flag : Int) :
    ((∃ s' r e, s.New path mode flag = Outcome.ret (s', r, some e)) ↔
      ∃ a f, s.files.get (Clean path) = some a ∧ s.heap.get? a = some f ∧ IsDir f.mode = false) ∧
    (∀ a f, s.files.get (Clean path) = some a → s.heap.get? a = some f → IsDir f.mode = false →
      s.New path mode flag = Outcome.ret (s, none, some (Err.AlreadyExists (Clean path)))) := by
  obtain ⟨n, hn⟩ := fuelFor_succ path
  have hcoll : ∀ a f, s.files.get (Clean path) = some a → s.heap.get? a = some f →
      IsDir f.mode = false →
      s.New path mode flag = Outcome.ret (s, none, some (Err.AlreadyExists (Clean path))) := by
    intro a f h1 h2 h3
    unfold storage.New
    rw [hn, storage.NewAux_stored n s path mode flag a f h1 h2, h3]
    simp
  refine ⟨⟨?_, ?_⟩, hcoll⟩
  · rintro ⟨s', r, e, h⟩
    unfold storage.New at h
    rw [hn] at h
    cases h1 : s.files.get (Clean path) with
    | none => exact absurd h (storage.New_no_error_of_fresh n s path mode flag h1 s' r e)
    | some a =>
      cases h2 : s.heap.get? a with
      | none =>
        rw [storage.NewAux_dangling n s path mode flag a h1 h2] at h
        cases h
      | some f =>
        rw [storage.NewAux_stored n s path mode flag a f h1 h2] at h
        cases h3 : IsDir f.mode with
        | false => exact ⟨a, f, rfl, h2, h3⟩
        | true =>
          rw [h3] at h
          simp at h
  · rintro ⟨a, f, h1, h2, h3⟩
    exact ⟨s, none, _, hcoll a f h1 h2 h3⟩

/-- C8 at the regular file `/a` of `underFileStore`, addressed as `/a/.`. -/
theorem C8_new_collision_witness :
    underFileStore.files.get (Clean "/a/.".toList) = some 0 ∧
    underFileStore.New "/a/.".toList (0o755 ||| ModeDir) 0
      = Outcome.ret (underFileStore, none, some (Err.AlreadyExists (Clean "/a/.".toList))) :=
  ⟨by decide,
    (C8_new_collision underFileStore "/a/.".toList (0o755 ||| ModeDir) 0).2 0
      { BaseFilename := "a".toList, content := ⟨[]⟩, mode := 0o644, flag := 0 }
      (by decide) (by decide) (by decide)⟩

/-! ## Concrete runs -/

/-- C10: behaviour of `Rename` next to a sibling whose name begins with the
characters of `from`.  The store is reached by `New("/a", dir)` and
`New("/ab", file)`; `/ab` is stored, its parent is `/`, so `/a` is neither `/ab`
nor an ancestor of it, and nothing is stored at `/x`.  For every order in which
the keys of `files` are enumerated, `Rename("/a", "/x")` selects `/ab` as well
(`HasPrefix` compares characters), maps it onto itself, deletes it and panics
on the nil pointer handed to `createParent`. -/
theorem C10_sibling_prefix :
    (newStorage.New "/a".toList (0o755 ||| ModeDir) 0).bind
        (fun r => r.1.New "/ab".toList 0o644 0) = Outcome.ret (siblingStore, some 2, none) ∧
      siblingStore.Has "/ab".toList = true ∧ Dir "/ab".toList = "/".toList ∧
      siblingStore.Has "/x".toList = false ∧
      HasPrefix "/ab".toList "/a".toList = true ∧
      Join "/x".toList (Rel "/a".toList "/ab".toList).1 = "/ab".toList ∧
      siblingStore.files.keys.permutations'.all
        (fun order => decide
          (storage.RenameIn order siblingStore "/a".toList "/x".toList = Outcome.panic)) = true := by
  refine ⟨by decide, by decide, by decide, by decide, by decide, by decide, by decide⟩

/-- C5: `New` below a regular file.  After `New("/a", 0644, 0)` the call
`New("/a/b", 0644, 0)` returns a node and no error (the error of `createParent`
is dropped), although the proper ancestor `/a` of `/a/b` is stored as a
non-directory and lists no child. -/
theorem C5_new_under_file :
    (newStorage.New "/a".toList 0o644 0).bind (fun r => r.1.New "/a/b".toList 0o644 0)
        = Outcome.ret (underFileStore, some 2, none) ∧
      Dir "/a/b".toList = "/a".toList ∧
      underFileStore.Get "/a".toList = some 0 ∧
      (underFileStore.heap.get? 0).map (fun f => IsDir f.mode) = some false ∧
      underFileStore.Children "/a".toList = [] := by
  refine ⟨by decide, by decide, by decide, by decide, by decide⟩

/-- C9: `Rename` into a directory that was itself renamed.  The store is
reached by `New("/a", dir)`, `Rename("/a", "/b")` and `New("/c", file)`: `move`
left a nil map under `children["/b"]`.  Every stored node other than the root
is listed by its stored parent directory, `/c` is stored, nothing is stored at
`/b/c`, and the ancestors `/b` and `/` of `/b/c` are directories; yet for every
order in which the keys of `files` are enumerated, `Rename("/c", "/b/c")`
panics on the write into the nil map instead of returning. -/
theorem C9_nil_children_entry :
    ((newStorage.New "/a".toList (0o755 ||| ModeDir) 0).bind
        (fun r => r.1.Rename "/a".toList "/b".toList)).bind
        (fun r => r.1.New "/c".toList 0o644 0) = Outcome.ret (nilEntryStore, some 2, none) ∧
      nilEntryStore.Has "/c".toList = true ∧ nilEntryStore.Has "/b/c".toList = false ∧
      nilEntryStore.Get "/b".toList = some 0 ∧
      (nilEntryStore.heap.get? 0).map (fun f => IsDir f.mode) = some true ∧
      nilEntryStore.children.get "/b".toList = some none ∧
      nilEntryStore.files.keys.permutations'.all
        (fun order => decide
          (storage.RenameIn order nilEntryStore "/c".toList "/b/c".toList = Outcome.panic))
        = true := by
  refine ⟨by decide, by decide, by decide, by decide, by decide, by decide, by decide⟩

/-- C6 read on the raw path fails when the path is not canonical: for
`P = "/a/."` the node returned by `New` on the empty store is named `a`, while
`Base(P)` is `.`. -/
theorem C6_base_of_raw_path :
    ¬ ∃ s a f, newStorage.New "/a/.".toList 0o644 0 = Outcome.ret (s, some a, none) ∧
      s.heap.get? a = some f ∧ f.BaseFilename = Base "/a/.".toList := by
  rintro ⟨s, a, f, h1, h2, h3⟩
  have e : newStorage.New "/a/.".toList 0o644 0 = Outcome.ret
      ({ heap := [{ BaseFilename := "a".toList, content := ⟨[]⟩, mode := 0o644, flag := 0 },
                  { BaseFilename := "/".toList, content := ⟨[]⟩, mode := 0o644 ||| ModeDir,
                    flag := 0 }],
         files := [("/a".toList, 0), ("/".toList, 1)],
         children := [("/".toList, some [("a".toList, 0)])] }, some 0, none) := by decide
  rw [e] at h1
  injection h1 with h1
  injection h1 with hs h1
  injection h1 with ha _
  injection ha with ha
  subst hs ha
  simp at h2
  subst h2
  revert h3
  decide

/-! ## Invariants of the store operations -/

namespace storage

/-- The ways in which `createParent` returns. -/
theorem createParentAux_ret (n : Nat) (s : storage) (path : List Char) (mode : Nat) (f : Addr)
    (s1 : storage) (e : Option Err)
    (h : createParentAux (n + 1) s path mode f = Outcome.ret (s1, e)) :
    (s1 = s ∧ e = none ∧ ∃ fr, s.heap.get? f = some fr ∧ fr.BaseFilename = separator) ∨
    (∃ fr r err, s.heap.get? f = some fr ∧ fr.BaseFilename ≠ separator ∧
      NewAux n s (Clean (Dir path)) (Perm mode ||| ModeDir) 0 = Outcome.ret (s1, r, some err) ∧
      e = some err) ∨
    (∃ fr s2 r, ∃ inner : Map (List Char) Addr, s.heap.get? f = some fr ∧
      fr.BaseFilename ≠ separator ∧
      NewAux n s (Clean (Dir path)) (Perm mode ||| ModeDir) 0 = Outcome.ret (s2, r, none) ∧
      s2.children.get (Clean (Dir path)) ≠ some none ∧
      inner = ((s2.children.get (Clean (Dir path))).join.getD []).set fr.BaseFilename f ∧
      s1 = { s2 with children := s2.children.set (Clean (Dir path)) (some inner) } ∧
      e = none) := by
  unfold createParentAux at h
  cases hf : s.heap.get? f with
  | none =>
    rw [hf] at h
    cases h
  | some fr =>
    by_cases hname : fr.BaseFilename = separator
    · simp only [hf, hname, if_true, Outcome.ret.injEq, Prod.mk.injEq] at h
      exact Or.inl ⟨h.1.symm, h.2.symm, fr, rfl, hname⟩
    · simp only [hf, hname, if_false] at h
      cases hnew : NewAux n s (Clean (Dir path)) (Perm mode ||| ModeDir) 0 with
      | panic =>
        rw [hnew] at h
        cases h
      | outOfFuel =>
        rw [hnew] at h
        cases h
      | ret x =>
        obtain ⟨s2, r, oe⟩ := x
        cases oe with
        | some err =>
          simp only [hnew, Outcome.ret.injEq, Prod.mk.injEq] at h
          exact Or.inr (Or.inl ⟨fr, r, err, rfl, hname, by rw [h.1], h.2.symm⟩)
        | none =>
          simp only [hnew] at h
          cases hc : s2.children.get (Clean (Dir path)) with
          | none =>
            simp only [hc, Outcome.ret.injEq, Prod.mk.injEq] at h
            exact Or.inr (Or.inr ⟨fr, s2, r, _, rfl, hname, rfl, by rw [hc]; simp, rfl,
              by rw [← h.1, hc]; rfl, h.2.symm⟩)
          | some o =>
            cases o with
            | none =>
              rw [hc] at h
              cases h
            | some m =>
              simp only [hc, Outcome.ret.injEq, Prod.mk.injEq] at h
              exact Or.inr (Or.inr ⟨fr, s2, r, _, rfl, hname, rfl, by rw [hc]; simp, rfl,
                by rw [← h.1, hc]; rfl, h.2.symm⟩)

/-- The ways in which `New` returns. -/
theorem NewAux_ret (n : Nat) (s : storage) (p : List Char) (mode : Nat) (flag : Int)
    (s1 : storage) (r : Option Addr) (e : Option Err)
    (h : NewAux (n + 1) s p mode flag = Outcome.ret (s1, r, e)) :
    (s1 = s ∧ r = none ∧ ∃ a f, s.files.get (Clean p) = some a ∧ s.heap.get? a = some f ∧
      e = if IsDir f.mode then none else some (Err.AlreadyExists (Clean p))) ∨
    (s.files.get (Clean p) = none ∧ r = some s.heap.length ∧ e = none ∧
      ∃ e2, createParentAux n
        { s with heap := s.heap ++ [{ BaseFilename := Base (Clean p), content := ⟨[]⟩,
                                      mode := mode, flag := flag }],
                 files := s.files.set (Clean p) s.heap.length }
        (Clean p) mode s.heap.length = Outcome.ret (s1, e2)) := by
  cases h1 : s.files.get (Clean p) with
  | none =>
    rw [NewAux_fresh n s p mode flag h1] at h
    split at h
    · rename_i s2 e2 hcp
      simp only [Outcome.ret.injEq, Prod.mk.injEq] at h
      obtain ⟨rfl, rfl, rfl⟩ := h
      exact Or.inr ⟨rfl, rfl, rfl, e2, hcp⟩
    · cases h
    · cases h
  | some a =>
    cases h2 : s.heap.get? a with
    | none =>
      rw [NewAux_dangling n s p mode flag a h1 h2] at h
      cases h
    | some f =>
      rw [NewAux_stored n s p mode flag a f h1 h2] at h
      by_cases hd : IsDir f.mode = true
      · rw [if_pos hd] at h
        simp only [Outcome.ret.injEq, Prod.mk.injEq] at h
        exact Or.inl ⟨h.1.symm, h.2.1.symm, a, f, rfl, h2, by rw [if_pos hd]; exact h.2.2.symm⟩
      · rw [if_neg hd] at h
        simp only [Outcome.ret.injEq, Prod.mk.injEq] at h
        exact Or.inl ⟨h.1.symm, h.2.1.symm, a, f, rfl, h2, by rw [if_neg hd]; exact h.2.2.symm⟩

/-- An invariant kept by the allocation of a node under a canonical key and by
the registration of a child under a canonical key is kept by `New` and by
`createParent`. -/
theorem NewAux_preserves (I : storage → Prop)
    (h_alloc : ∀ (s : storage) (p : List Char) (mode : Nat) (flag : Int), I s →
      I { s with heap := s.heap ++ [{ BaseFilename := Base (Clean p), content := ⟨[]⟩,
                                      mode := mode, flag := flag }],
                 files := s.files.set (Clean p) s.heap.length })
    (h_child : ∀ (s : storage) (base : List Char) (inner : Map (List Char) Addr), I s →
      Clean base = base → I { s with children := s.children.set base (some inner) }) :
    ∀ n, (∀ s p mode flag s1 r e, I s →
        NewAux n s p mode flag = Outcome.ret (s1, r, e) → I s1) ∧
      (∀ s path mode f s1 e, I s →
        createParentAux n s path mode f = Outcome.ret (s1, e) → I s1) := by
  intro n
  induction n with
  | zero =>
    constructor
    · intro s p mode flag s1 r e _ h
      simp [NewAux] at h
    · intro s path mode f s1 e _ h
      simp [createParentAux] at h
  | succ n ih =>
    constructor
    · intro s p mode flag s1 r e hI h
      rcases NewAux_ret n s p mode flag s1 r e h with ⟨rfl, -, -⟩ | ⟨-, -, -, e2, hcp⟩
      · exact hI
      · exact ih.2 _ _ _ _ _ _ (h_alloc s p mode flag hI) hcp
    · intro s path mode f s1 e hI h
      rcases createParentAux_ret n s path mode f s1 e h with
        ⟨rfl, -, -⟩ | ⟨fr, r, err, -, -, hnew, -⟩ | ⟨fr, s2, r, inner, -, -, hnew, -, -, rfl, -⟩
      · exact hI
      · exact ih.1 _ _ _ _ _ _ _ hI hnew
      · exact h_child _ _ _ (ih.1 _ _ _ _ _ _ _ hI hnew) (Clean_idem _)

end storage

theorem Clean_ne_nil (p : List Char) : Clean p ≠ [] := by
  by_cases hp : p = []
  · subst hp; decide
  by_cases hr : p.head? = some '/'
  · obtain ⟨cs, -, h2⟩ := Clean_rooted p hr
    rw [h2]; exact render_ne_nil cs
  · obtain ⟨regs, h1, h2, -⟩ := clean_scan_inv false p
    have hC : Clean p = if ((splitSep p).foldl (cleanStep false) ([], 0)).1 = [] then ['.']
        else joinSep ((splitSep p).foldl (cleanStep false) ([], 0)).1 := by
      unfold Clean
      simp only [hp, if_false, hr, decide_False]
      rfl
    generalize (splitSep p).foldl (cleanStep false) ([], 0) = st at h1 hC
    by_cases hout : st.1 = []
    · rw [hC, if_pos hout]; simp
    · rw [hC, if_neg hout]
      apply joinSep_ne_nil st.1 hout
      intro c hc
      rw [h1] at hc
      rcases List.mem_append.mp hc with hc | hc
      · rw [List.eq_of_mem_replicate hc]; decide
      · exact (h2 c hc).1

theorem Join_canonical (a b : List Char) (h : a ≠ []) : Clean (Join a b) = Join a b := by
  unfold Join
  rw [if_pos h, Clean_idem]

theorem Map.get_del_some {κ ν : Type} [DecidableEq κ] (m : Map κ ν) (k q : κ) (v : ν)
    (h : (m.del k).get q = some v) : q ≠ k ∧ m.get q = some v := by
  by_cases hq : q = k
  · subst hq
    rw [Map.get_del_self] at h
    cases h
  · rw [Map.get_del_ne m k q hq] at h
    exact ⟨hq, h⟩

theorem Map.get_del_ne_none {κ ν : Type} [DecidableEq κ] (m : Map κ ν) (k q : κ)
    (h : (m.del k).get q ≠ none) : q ≠ k ∧ m.get q ≠ none := by
  by_cases hq : q = k
  · subst hq
    exact absurd (Map.get_del_self m q) h
  · rw [Map.get_del_ne m k q hq] at h
    exact ⟨hq, h⟩

theorem Map.get_set_ne_none {κ ν : Type} [DecidableEq κ] (m : Map κ ν) (k q : κ) (v : ν)
    (h : (m.set k v).get q ≠ none) : q = k ∨ m.get q ≠ none := by
  by_cases hq : q = k
  · exact Or.inl hq
  · rw [Map.get_set_ne m k q v hq] at h
    exact Or.inr h

namespace storage

/-- The way in which `move` returns. -/
theorem move_ret (s : storage) (pfrom pto : List Char) (s1 : storage) (e : Option Err)
    (h : move s pfrom pto = Outcome.ret (s1, e)) :
    pfrom ≠ pto ∧ ∃ a fr, s.files.get pfrom = some a ∧ s.heap.get? a = some fr ∧
      createParentAux (fuelFor pto) (moved s pfrom pto a fr) pto 0o644 a
        = Outcome.ret (s1, e) := by
  unfold move at h
  cases h1 : s.files.get pfrom with
  | none =>
    rw [h1] at h
    cases h
  | some a =>
    cases h2 : s.heap.get? a with
    | none =>
      simp only [h1, h2] at h
      cases h
    | some fr =>
      simp only [h1, h2] at h
      by_cases hne : pfrom = pto
      · subst hne
        rw [Map.get_del_self] at h
        cases h
      · rw [Map.get_del_ne _ _ _ (fun e => hne e.symm), Map.get_set_self] at h
        exact ⟨hne, a, fr, rfl, h2, h⟩

/-- An invariant kept by every `move` towards a target with property `P` is
kept by the loop of moves. -/
theorem runMoves_preserves (I : storage → Prop) (P : List Char → Prop)
    (hmove : ∀ s pfrom pto s1 e, I s → P pto → move s pfrom pto = Outcome.ret (s1, e) → I s1)
    (moves : List (List Char × List Char)) :
    (∀ m ∈ moves, P m.2) → ∀ s s1 e, I s → runMoves moves s = Outcome.ret (s1, e) → I s1 := by
  induction moves with
  | nil =>
    intro _ s s1 e hI h
    simp only [runMoves, Outcome.ret.injEq, Prod.mk.injEq] at h
    rw [← h.1]; exact hI
  | cons m rest ih =>
    intro hP s s1 e hI h
    obtain ⟨pf, pt⟩ := m
    unfold runMoves at h
    cases hm : move s pf pt with
    | panic => rw [hm] at h; cases h
    | outOfFuel => rw [hm] at h; cases h
    | ret x =>
      obtain ⟨s2, oe⟩ := x
      have hI2 : I s2 := hmove s pf pt s2 oe hI (hP (pf, pt) (by simp)) hm
      cases oe with
      | none =>
        rw [hm] at h
        exact ih (fun m hm => hP m (List.mem_cons_of_mem _ hm)) s2 s1 e hI2 h
      | some err =>
        rw [hm] at h
        simp only [Outcome.ret.injEq, Prod.mk.injEq] at h
        rw [← h.1]; exact hI2

/-- An invariant kept by every `move` towards a canonical target is kept by
`Rename`. -/
theorem RenameIn_preserves (I : storage → Prop)
    (hmove : ∀ s pfrom pto s1 e, I s → Clean pto = pto →
      move s pfrom pto = Outcome.ret (s1, e) → I s1)
    (order : List (List Char)) (s : storage) (pfrom pto : List Char) (s1 : storage)
    (e : Option Err) (hI : I s) (h : RenameIn order s pfrom pto = Outcome.ret (s1, e)) : I s1 := by
  unfold RenameIn at h
  simp only at h
  split at h
  · simp only [Outcome.ret.injEq, Prod.mk.injEq] at h
    rw [← h.1]; exact hI
  · refine runMoves_preserves I (fun t => Clean t = t) hmove _ ?_ s s1 e hI h
    intro m hm
    rcases List.mem_cons.mp hm with hm | hm
    · subst hm
      exact Clean_idem pto
    · obtain ⟨q, -, rfl⟩ := List.mem_map.mp hm
      exact Join_canonical _ _ (Clean_ne_nil pto)

theorem NewKeysCanon_refl (s : storage) : NewKeysCanon s s :=
  ⟨fun _ h => Or.inl h, fun _ h => Or.inl h⟩

theorem NewKeysCanon_alloc (s0 s : storage) (p : List Char) (mode : Nat) (flag : Int)
    (h : NewKeysCanon s0 s) :
    NewKeysCanon s0
      { s with heap := s.heap ++ [{ BaseFilename := Base (Clean p), content := ⟨[]⟩,
                                    mode := mode, flag := flag }],
               files := s.files.set (Clean p) s.heap.length } := by
  refine ⟨?_, h.2⟩
  intro k hk
  rcases Map.get_set_ne_none _ _ _ _ hk with rfl | hk
  · exact Or.inr (Clean_idem p)
  · exact h.1 k hk

theorem NewKeysCanon_child (s0 s : storage) (base : List Char) (inner : Map (List Char) Addr)
    (h : NewKeysCanon s0 s) (hb : Clean base = base) :
    NewKeysCanon s0 { s with children := s.children.set base (some inner) } := by
  refine ⟨h.1, ?_⟩
  intro k hk
  rcases Map.get_set_ne_none _ _ _ _ hk with rfl | hk
  · exact Or.inr hb
  · exact h.2 k hk

theorem NewKeysCanon_moved (s0 s : storage) (pfrom pto : List Char) (a : Addr) (fr : File)
    (h : NewKeysCanon s0 s) (hb : Clean pto = pto) :
    NewKeysCanon s0 (moved s pfrom pto a fr) := by
  constructor
  · intro k hk
    rcases Map.get_set_ne_none _ _ _ _ (Map.get_del_ne_none _ _ _ hk).2 with rfl | hk
    · exact Or.inr hb
    · exact h.1 k hk
  · intro k hk
    rcases Map.get_set_ne_none _ _ _ _ (Map.get_del_ne_none _ _ _ hk).2 with rfl | hk
    · exact Or.inr hb
    · exact h.2 k hk

theorem NewKeysCanon_move (s0 s : storage) (pfrom pto : List Char) (s1 : storage)
    (e : Option Err) (h : NewKeysCanon s0 s) (hb : Clean pto = pto)
    (hm : move s pfrom pto = Outcome.ret (s1, e)) : NewKeysCanon s0 s1 := by
  obtain ⟨-, a, fr, -, -, hcp⟩ := move_ret s pfrom pto s1 e hm
  exact (NewAux_preserves (NewKeysCanon s0)
    (fun s p mode flag hI => NewKeysCanon_alloc s0 s p mode flag hI)
    (fun s base inner hI hc => NewKeysCanon_child s0 s base inner hI hc) _).2
    _ _ _ _ _ _ (NewKeysCanon_moved s0 s pfrom pto a fr h hb) hcp

/-- The ways in which `Remove` returns. -/
theorem Remove_ret (s : storage) (path : List Char) :
    (s.files.get (Clean path) = none ∧ s.Remove path = Outcome.ret (s, some Err.NotExist)) ∨
    (∃ a, s.files.get (Clean path) = some a ∧ s.heap.get? a = none ∧
      s.Remove path = Outcome.panic) ∨
    (∃ a f, s.files.get (Clean path) = some a ∧ s.heap.get? a = some f ∧
      IsDir f.mode = true ∧ (s.children.get (Clean path)).join.getD [] ≠ [] ∧
      s.Remove path = Outcome.ret (s, some (Err.NotEmpty (Clean path)))) ∨
    (∃ a f, s.files.get (Clean path) = some a ∧ s.heap.get? a = some f ∧
      ¬ (IsDir f.mode = true ∧ (s.children.get (Clean path)).join.getD [] ≠ []) ∧
      s.Remove path = Outcome.ret
        ({ s with files := s.files.del (Clean path),
                  children :=
                    match s.children.get (Dir (Clean path)) with
                    | some (some m) =>
                      s.children.set (Dir (Clean path)) (some (m.del (Split (Clean path)).2))
                    | _ => s.children }, none)) := by
  cases h1 : s.files.get (Clean path) with
  | none =>
    refine Or.inl ⟨rfl, ?_⟩
    unfold Remove
    simp only [Get_clean, h1]
  | some a =>
    cases h2 : s.heap.get? a with
    | none =>
      refine Or.inr (Or.inl ⟨a, rfl, h2, ?_⟩)
      unfold Remove
      simp only [Get_clean, h1, h2]
    | some f =>
      by_cases hc : IsDir f.mode = true ∧ (s.children.get (Clean path)).join.getD [] ≠ []
      · refine Or.inr (Or.inr (Or.inl ⟨a, f, rfl, h2, hc.1, hc.2, ?_⟩))
        have hlen : ((s.children.get (Clean path)).join.getD []).length ≠ 0 := by
          intro h0
          exact hc.2 (List.length_eq_zero.mp h0)
        have hcond : (IsDir f.mode && ((s.children.get (Clean path)).join.getD []).length != 0)
            = true := by
          rw [hc.1, Bool.true_and, bne_iff_ne]
          exact hlen
        unfold Remove
        simp only [Get_clean, h1, h2, hcond, if_true]
      · refine Or.inr (Or.inr (Or.inr ⟨a, f, rfl, h2, hc, ?_⟩))
        have hcond : (IsDir f.mode && ((s.children.get (Clean path)).join.getD []).length != 0)
            = false := by
          by_cases hd : IsDir f.mode = true
          · have : (s.children.get (Clean path)).join.getD [] = [] := by
              by_contra hne
              exact hc ⟨hd, hne⟩
            rw [this]
            simp
          · rw [Bool.not_eq_true] at hd
            rw [hd, Bool.false_and]
        unfold Remove
        simp only [Get_clean, h1, h2, hcond, Bool.false_eq_true, if_false]
        rfl

theorem NewKeysCanon_Remove (s : storage) (path : List Char) (s1 : storage) (e : Option Err)
    (h : s.Remove path = Outcome.ret (s1, e)) : NewKeysCanon s s1 := by
  rcases Remove_ret s path with ⟨-, h1⟩ | ⟨a, -, -, h1⟩ | ⟨a, f, -, -, -, -, h1⟩ |
    ⟨a, f, -, -, -, h1⟩
  · rw [h1] at h
    simp only [Outcome.ret.injEq, Prod.mk.injEq] at h
    rw [← h.1]; exact NewKeysCanon_refl s
  · rw [h1] at h; cases h
  · rw [h1] at h
    simp only [Outcome.ret.injEq, Prod.mk.injEq] at h
    rw [← h.1]; exact NewKeysCanon_refl s
  · rw [h1] at h
    simp only [Outcome.ret.injEq, Prod.mk.injEq] at h
    rw [← h.1]
    constructor
    · intro k hk
      exact Or.inl (Map.get_del_ne_none _ _ _ hk).2
    · intro k hk
      left
      show s.children.get k ≠ none
      revert hk
      cases hc : s.children.get (Dir (Clean path)) with
      | none => exact fun hk => hk
      | some o =>
        cases o with
        | none => exact fun hk => hk
        | some m =>
          intro hk
          rcases Map.get_set_ne_none _ _ _ _ hk with rfl | hk
          · rw [hc]; simp
          · exact hk

end storage

theorem getLast?_cons_ne_nil {α : Type} (a : α) (l : List α) (h : l ≠ []) :
    (a :: l).getLast? = l.getLast? := by
  cases l with
  | nil => exact absurd rfl h
  | cons b l => rw [List.getLast?_cons_cons]

theorem getLast?_noslash (e : List Char) (h : '/' ∉ e) : e.getLast? ≠ some '/' := by
  intro hl
  exact h (List.mem_of_getLast?_eq_some hl)

theorem joinSep_getLast (es : List (List Char)) (hne : es ≠ [])
    (h : ∀ c ∈ es, c ≠ [] ∧ '/' ∉ c) : (joinSep es).getLast? ≠ some '/' := by
  induction es with
  | nil => exact absurd rfl hne
  | cons e es ih =>
    cases es with
    | nil => exact getLast?_noslash e (h e (by simp)).2
    | cons e' es' =>
      have ih' := ih (by simp) (fun c hc => h c (List.mem_cons_of_mem _ hc))
      have hj := joinSep_ne_nil (e' :: es') (by simp)
        (fun c hc => (h c (List.mem_cons_of_mem _ hc)).1)
      rw [joinSep_cons_cons, List.getLast?_append_of_ne_nil _ (by simp),
        getLast?_cons_ne_nil _ _ hj]
      exact ih'

/-- A cleaned path other than the root does not end in a separator. -/
theorem Clean_getLast (p : List Char) (h : Clean p ≠ ['/']) : (Clean p).getLast? ≠ some '/' := by
  by_cases hp : p = []
  · subst hp; decide
  by_cases hr : p.head? = some '/'
  · obtain ⟨cs, h1, h2⟩ := Clean_rooted p hr
    rw [h2] at h ⊢
    have hcs : cs ≠ [] := by
      intro hc; subst hc; exact h rfl
    have hj := joinSep_ne_nil cs hcs (fun c hc => (h1 c hc).1)
    unfold render
    rw [getLast?_cons_ne_nil _ _ hj]
    exact joinSep_getLast cs hcs (fun c hc => ⟨(h1 c hc).1, (h1 c hc).2.2.2⟩)
  · obtain ⟨regs, h1, h2, -⟩ := clean_scan_inv false p
    have hC : Clean p = if ((splitSep p).foldl (cleanStep false) ([], 0)).1 = [] then ['.']
        else joinSep ((splitSep p).foldl (cleanStep false) ([], 0)).1 := by
      unfold Clean
      simp only [hp, if_false, hr, decide_False]
      rfl
    generalize (splitSep p).foldl (cleanStep false) ([], 0) = st at h1 hC
    by_cases hout : st.1 = []
    · rw [hC, if_pos hout]; decide
    · rw [hC, if_neg hout]
      apply joinSep_getLast st.1 hout
      intro c hc
      rw [h1] at hc
      rcases List.mem_append.mp hc with hc | hc
      · rw [List.eq_of_mem_replicate hc]; decide
      · exact ⟨(h2 c hc).1, (h2 c hc).2.2.2⟩

/-- On a non-empty path that does not end in a separator, `Base` is the file
part of `Split`. -/
theorem Base_eq_Split (p : List Char) (hne : p ≠ []) (hl : p.getLast? ≠ some '/') :
    Base p = (Split p).2 := by
  obtain ⟨x, xs, hx⟩ := List.exists_cons_of_ne_nil (by simpa using hne : p.reverse ≠ [])
  have hxne : x ≠ '/' := by
    intro hx'
    apply hl
    rw [List.getLast?_eq_head?_reverse, hx, hx']
    rfl
  unfold Base
  rw [if_neg hne]
  have hd : p.reverse.dropWhile (fun ch => decide (ch = '/')) = p.reverse := by
    rw [hx]
    simp [List.dropWhile, hxne]
  simp only [hd, List.reverse_reverse]
  have h2 : (Split p).2 ≠ [] := by
    unfold Split
    rw [hx]
    simp [List.takeWhile, hxne]
  rw [if_neg h2]

theorem Base_Clean_eq_Split (p : List Char) (h : Clean p ≠ ['/']) :
    Base (Clean p) = (Split (Clean p)).2 :=
  Base_eq_Split _ (Clean_ne_nil p) (Clean_getLast p h)

/-- C12, with the entry removed named by `Split`: the contract of one call of
`Remove`.  With `p = Clean(path)`: `Remove(path)` returns the not-exist error if
and only if nothing is stored at `p`; when a node is stored at `p`, it returns
the directory-not-empty error if and only if the node has the directory bit and
`children[p]` has at least one entry; in both failure cases the store is
unchanged; otherwise it returns no error, afterwards `Has(p)` is false,
`children[Dir(p)]` has no entry under the file part of `Split(p)` (which is
`Base(p)` for every `p` other than the root), and every other entry of `files`
and of `children` (and every node) is unchanged. -/
theorem C12_remove_contract (s : storage) (path : List Char) :
    ((∃ s1, s.Remove path = Outcome.ret (s1, some Err.NotExist)) ↔
      s.files.get (Clean path) = none) ∧
    (s.files.get (Clean path) = none → s.Remove path = Outcome.ret (s, some Err.NotExist)) ∧
    (∀ a f, s.files.get (Clean path) = some a → s.heap.get? a = some f →
      ((∃ s1 q, s.Remove path = Outcome.ret (s1, some (Err.NotEmpty q))) ↔
        (IsDir f.mode = true ∧ (s.children.get (Clean path)).join.getD [] ≠ [])) ∧
      (IsDir f.mode = true ∧ (s.children.get (Clean path)).join.getD [] ≠ [] →
        s.Remove path = Outcome.ret (s, some (Err.NotEmpty (Clean path)))) ∧
      (¬ (IsDir f.mode = true ∧ (s.children.get (Clean path)).join.getD [] ≠ []) →
        ∃ s1, s.Remove path = Outcome.ret (s1, none) ∧
          s1.Has (Clean path) = false ∧ s1.heap = s.heap ∧
          (s1.children.get (Dir (Clean path))).join.bind
            (fun m => m.get (Split (Clean path)).2) = none ∧
          (Clean path ≠ ['/'] → (Split (Clean path)).2 = Base (Clean path)) ∧
          (∀ q, q ≠ Clean path → s1.files.get q = s.files.get q) ∧
          (∀ P name, P ≠ Dir (Clean path) ∨ name ≠ (Split (Clean path)).2 →
            (s1.children.get P).join.bind (fun m => m.get name)
              = (s.children.get P).join.bind (fun m => m.get name)))) := by
  have hcases := storage.Remove_ret s path
  refine ⟨⟨?_, ?_⟩, ?_, ?_⟩
  · rintro ⟨s1, h⟩
    rcases hcases with ⟨h0, -⟩ | ⟨a, -, -, h1⟩ | ⟨a, f, -, -, -, -, h1⟩ | ⟨a, f, -, -, -, h1⟩
    · exact h0
    · rw [h1] at h; cases h
    · rw [h1] at h; simp at h
    · rw [h1] at h; simp at h
  · intro h0
    rcases hcases with ⟨-, h1⟩ | ⟨a, h2, -, -⟩ | ⟨a, f, h2, -⟩ | ⟨a, f, h2, -⟩
    · exact ⟨s, h1⟩
    · rw [h0] at h2; cases h2
    · rw [h0] at h2; cases h2
    · rw [h0] at h2; cases h2
  · intro h0
    rcases hcases with ⟨-, h1⟩ | ⟨a, h2, -, -⟩ | ⟨a, f, h2, -⟩ | ⟨a, f, h2, -⟩
    · exact h1
    · rw [h0] at h2; cases h2
    · rw [h0] at h2; cases h2
    · rw [h0] at h2; cases h2
  · intro a f ha hf
    have key : (IsDir f.mode = true ∧ (s.children.get (Clean path)).join.getD [] ≠ [] →
          s.Remove path = Outcome.ret (s, some (Err.NotEmpty (Clean path)))) ∧
        (¬ (IsDir f.mode = true ∧ (s.children.get (Clean path)).join.getD [] ≠ []) →
          s.Remove path = Outcome.ret
            ({ s with files := s.files.del (Clean path),
                      children :=
                        match s.children.get (Dir (Clean path)) with
                        | some (some m) =>
                          s.children.set (Dir (Clean path))
                            (some (m.del (Split (Clean path)).2))
                        | _ => s.children }, none)) := by
      rcases hcases with ⟨h0, -⟩ | ⟨a2, h2, h3, -⟩ | ⟨a2, f2, h2, h3, h4, h5, h1⟩ |
        ⟨a2, f2, h2, h3, h4, h1⟩
      · rw [ha] at h0; cases h0
      · rw [ha] at h2; cases h2
        rw [hf] at h3; cases h3
      · rw [ha] at h2; cases h2
        rw [hf] at h3; cases h3
        exact ⟨fun _ => h1, fun hn => absurd ⟨h4, h5⟩ hn⟩
      · rw [ha] at h2; cases h2
        rw [hf] at h3; cases h3
        exact ⟨fun hy => absurd hy h4, fun _ => h1⟩
    refine ⟨⟨?_, fun hy => ⟨s, _, key.1 hy⟩⟩, key.1, ?_⟩
    · rintro ⟨s1, q, h⟩
      by_contra hn
      rw [key.2 hn] at h
      simp at h
    · intro hn
      refine ⟨_, key.2 hn, ?_, rfl, ?_, fun hroot => (Base_Clean_eq_Split path hroot).symm, ?_, ?_⟩
      · show (Map.get (Map.del s.files (Clean path)) (Clean (Clean path))).isSome = false
        rw [Clean_idem, Map.get_del_self]
        rfl
      · show (Map.get (match s.children.get (Dir (Clean path)) with
            | some (some m) =>
              s.children.set (Dir (Clean path)) (some (m.del (Split (Clean path)).2))
            | _ => s.children) (Dir (Clean path))).join.bind
              (fun m => m.get (Split (Clean path)).2) = none
        cases hc : s.children.get (Dir (Clean path)) with
        | none => simp only [hc]; rfl
        | some o =>
          cases o with
          | none => simp only [hc]; rfl
          | some m =>
            simp only [Map.get_set_self]
            exact Map.get_del_self m _
      · intro q hq
        exact Map.get_del_ne _ _ _ hq
      · intro P name hP
        show (Map.get (match s.children.get (Dir (Clean path)) with
            | some (some m) =>
              s.children.set (Dir (Clean path)) (some (m.del (Split (Clean path)).2))
            | _ => s.children) P).join.bind (fun m => m.get name) = _
        cases hc : s.children.get (Dir (Clean path)) with
        | none => rfl
        | some o =>
          cases o with
          | none => rfl
          | some m =>
            simp only
            by_cases hPd : P = Dir (Clean path)
            · subst hPd
              have hname : name ≠ (Split (Clean path)).2 := by
                rcases hP with hP | hP
                · exact absurd rfl hP
                · exact hP
              rw [Map.get_set_self, hc]
              exact Map.get_del_ne m _ _ hname
            · rw [Map.get_set_ne _ _ _ _ hPd]

/-- C16: path normalization at every entry point.  For path strings with the
same canonical form, `Has`, `Get`, `New`, `Children`, `Remove` and (in both
arguments, for every enumeration order) `Rename` return the same result and the
same store; and every key that `New`, `Rename` or `Remove` adds to `files` or
to `children` is canonical (`Clean(k) = k`). -/
theorem C16_path_normalization (s : storage) (p p2 q q2 : List Char) (mode : Nat) (flag : Int)
    (order : List (List Char)) (hp : Clean p = Clean p2) (hq : Clean q = Clean q2) :
    s.Has p = s.Has p2 ∧ s.Get p = s.Get p2 ∧
    s.New p mode flag = s.New p2 mode flag ∧
    s.Children p = s.Children p2 ∧
    s.Remove p = s.Remove p2 ∧
    storage.RenameIn order s p q = storage.RenameIn order s p2 q2 ∧
    (∀ s1 r e, s.New p mode flag = Outcome.ret (s1, r, e) → storage.NewKeysCanon s s1) ∧
    (∀ s1 e, storage.RenameIn order s p q = Outcome.ret (s1, e) → storage.NewKeysCanon s s1) ∧
    (∀ s1 e, s.Remove p = Outcome.ret (s1, e) → storage.NewKeysCanon s s1) := by
  refine ⟨?_, ?_, ?_, ?_, ?_, ?_, ?_, ?_, ?_⟩
  · unfold storage.Has
    rw [hp]
  · rw [storage.Get_eq, storage.Get_eq, hp]
  · unfold storage.New storage.fuelFor
    rw [storage.NewAux_clean _ s p, storage.NewAux_clean _ s p2, hp]
  · unfold storage.Children
    rw [hp]
  · unfold storage.Remove
    simp only [hp]
  · unfold storage.RenameIn
    simp only [hp, hq]
  · intro s1 r e h
    exact (storage.NewAux_preserves (storage.NewKeysCanon s)
      (fun s' p' mode' flag' hI => storage.NewKeysCanon_alloc s s' p' mode' flag' hI)
      (fun s' base inner hI hc => storage.NewKeysCanon_child s s' base inner hI hc) _).1
      _ _ _ _ _ _ _ (storage.NewKeysCanon_refl s) h
  · intro s1 e h
    exact storage.RenameIn_preserves (storage.NewKeysCanon s)
      (fun s' pf pt s1' e' hI hc hm => storage.NewKeysCanon_move s s' pf pt s1' e' hI hc hm)
      order s p q s1 e (storage.NewKeysCanon_refl s) h
  · intro s1 e h
    exact storage.NewKeysCanon_Remove s p s1 e h

/-- C16 at `/a//b/` and `/a/./x/../b` on `deepStore`, with a rename to `/y`
written as `//y` and as `/y/.`. -/
theorem C16_path_normalization_witness :
    Clean "/a//b/".toList = Clean "/a/./x/../b".toList ∧
    Clean "//y".toList = Clean "/y/.".toList ∧
    deepStore.Has "/a//b/".toList = deepStore.Has "/a/./x/../b".toList ∧
    deepStore.New "/a//b/".toList 0o644 0 = deepStore.New "/a/./x/../b".toList 0o644 0 ∧
    deepStore.Remove "/a//b/".toList = deepStore.Remove "/a/./x/../b".toList ∧
    deepStore.Rename "/a//b/".toList "//y".toList
      = deepStore.Rename "/a/./x/../b".toList "/y/.".toList :=
  have h := C16_path_normalization deepStore "/a//b/".toList "/a/./x/../b".toList "//y".toList
    "/y/.".toList 0o644 0 deepStore.files.keys (by decide) (by decide)
  ⟨by decide, by decide, h.1, h.2.2.1, h.2.2.2.2.1, h.2.2.2.2.2.1⟩

namespace storage

theorem NameSync_alloc (s : storage) (p : List Char) (mode : Nat) (flag : Int)
    (h : NameSync s) :
    NameSync
      { s with heap := s.heap ++ [{ BaseFilename := Base (Clean p), content := ⟨[]⟩,
                                    mode := mode, flag := flag }],
               files := s.files.set (Clean p) s.heap.length } := by
  -- no key of `s` holds the fresh address
  have hfresh : ∀ Q, s.files.get Q ≠ some s.heap.length := by
    intro Q hQ
    obtain ⟨⟨f, hf, -⟩, -⟩ := h Q _ hQ
    rw [List.get?_eq_getElem?, List.getElem?_eq_none (le_refl _)] at hf
    cases hf
  intro Q a hQ
  have hQ' : (s.files.set (Clean p) s.heap.length).get Q = some a := hQ
  by_cases hk : Q = Clean p
  · subst hk
    rw [Map.get_set_self] at hQ'
    injection hQ' with hQ'
    subst hQ'
    constructor
    · refine ⟨{ BaseFilename := Base (Clean p), content := ⟨[]⟩, mode := mode, flag := flag },
        ?_, rfl⟩
      show (s.heap ++ [_]).get? s.heap.length = _
      rw [List.get?_eq_getElem?, List.getElem?_append_right (le_refl _)]
      simp
    · intro Q2 hQ2
      have hQ2' : (s.files.set (Clean p) s.heap.length).get Q2 = some s.heap.length := hQ2
      by_contra hne
      rw [Map.get_set_ne _ _ _ _ hne] at hQ2'
      exact hfresh Q2 hQ2'
  · rw [Map.get_set_ne _ _ _ _ hk] at hQ'
    obtain ⟨⟨f, hf, hname⟩, hinj⟩ := h Q a hQ'
    constructor
    · refine ⟨f, ?_, hname⟩
      show (s.heap ++ [_]).get? a = _
      rw [List.get?_eq_getElem?] at hf ⊢
      have hlt : a < s.heap.length := by
        by_contra hge
        rw [List.getElem?_eq_none (Nat.le_of_not_lt hge)] at hf
        cases hf
      rw [List.getElem?_append_left hlt]
      exact hf
    · intro Q2 hQ2
      have hQ2' : (s.files.set (Clean p) s.heap.length).get Q2 = some a := hQ2
      by_cases hk2 : Q2 = Clean p
      · subst hk2
        rw [Map.get_set_self] at hQ2'
        injection hQ2' with hQ2'
        subst hQ2'
        exact absurd hQ' (hfresh Q)
      · rw [Map.get_set_ne _ _ _ _ hk2] at hQ2'
        exact hinj Q2 hQ2'

theorem NameSync_child (s : storage) (base : List Char) (inner : Map (List Char) Addr)
    (h : NameSync s) : NameSync { s with children := s.children.set base (some inner) } :=
  h

theorem NameSync_moved (s : storage) (pfrom pto : List Char) (a : Addr) (fr : File)
    (h : NameSync s) (hne : pfrom ≠ pto) (ha : s.files.get pfrom = some a)
    (hfr : s.heap.get? a = some fr) : NameSync (moved s pfrom pto a fr) := by
  have hlt : a < s.heap.length := by
    rw [List.get?_eq_getElem?] at hfr
    by_contra hge
    rw [List.getElem?_eq_none (Nat.le_of_not_lt hge)] at hfr
    cases hfr
  intro Q b hQ
  have hQ' : ((s.files.set pto a).del pfrom).get Q = some b := hQ
  obtain ⟨hQf, hQ'⟩ := Map.get_del_some _ _ _ _ hQ'
  by_cases hk : Q = pto
  · subst hk
    rw [Map.get_set_self] at hQ'
    injection hQ' with hQ'
    subst hQ'
    constructor
    · refine ⟨{ fr with BaseFilename := Base Q }, ?_, rfl⟩
      show (s.heap.set a _).get? a = _
      rw [List.get?_eq_getElem?, List.getElem?_set_self hlt]
    · intro Q2 hQ2
      have hQ2' : ((s.files.set Q a).del pfrom).get Q2 = some a := hQ2
      obtain ⟨hQ2f, hQ2'⟩ := Map.get_del_some _ _ _ _ hQ2'
      by_contra hk2
      rw [Map.get_set_ne _ _ _ _ hk2] at hQ2'
      exact hQ2f ((h pfrom a ha).2 Q2 hQ2')
  · rw [Map.get_set_ne _ _ _ _ hk] at hQ'
    obtain ⟨⟨f, hf, hname⟩, hinj⟩ := h Q b hQ'
    have hba : a ≠ b := by
      intro hab
      subst hab
      exact hQf (hinj pfrom ha).symm
    constructor
    · refine ⟨f, ?_, hname⟩
      show (s.heap.set a _).get? b = _
      rw [List.get?_eq_getElem?, List.getElem?_set_ne hba]
      rw [List.get?_eq_getElem?] at hf
      exact hf
    · intro Q2 hQ2
      have hQ2' : ((s.files.set pto a).del pfrom).get Q2 = some b := hQ2
      obtain ⟨-, hQ2'⟩ := Map.get_del_some _ _ _ _ hQ2'
      by_cases hk2 : Q2 = pto
      · subst hk2
        rw [Map.get_set_self] at hQ2'
        injection hQ2' with hQ2'
        exact absurd hQ2' hba
      · rw [Map.get_set_ne _ _ _ _ hk2] at hQ2'
        exact hinj Q2 hQ2'

theorem NameSync_New (s : storage) (p : List Char) (mode : Nat) (flag : Int) (s1 : storage)
    (r : Option Addr) (e : Option Err) (h : NameSync s)
    (hn : s.New p mode flag = Outcome.ret (s1, r, e)) : NameSync s1 :=
  (NewAux_preserves NameSync (fun s p mode flag hI => NameSync_alloc s p mode flag hI)
    (fun s base inner hI _ => NameSync_child s base inner hI) _).1 _ _ _ _ _ _ _ h hn

theorem NameSync_move (s : storage) (pfrom pto : List Char) (s1 : storage) (e : Option Err)
    (h : NameSync s) (hm : move s pfrom pto = Outcome.ret (s1, e)) : NameSync s1 := by
  obtain ⟨hne, a, fr, ha, hfr, hcp⟩ := move_ret s pfrom pto s1 e hm
  exact (NewAux_preserves NameSync (fun s p mode flag hI => NameSync_alloc s p mode flag hI)
    (fun s base inner hI _ => NameSync_child s base inner hI) _).2
    _ _ _ _ _ _ (NameSync_moved s pfrom pto a fr h hne ha hfr) hcp

theorem NameSync_Remove (s : storage) (path : List Char) (s1 : storage) (e : Option Err)
    (h : NameSync s) (hr : s.Remove path = Outcome.ret (s1, e)) : NameSync s1 := by
  rcases Remove_ret s path with ⟨-, h1⟩ | ⟨a, -, -, h1⟩ | ⟨a, f, -, -, -, -, h1⟩ |
    ⟨a, f, -, -, -, h1⟩
  · rw [h1] at hr
    simp only [Outcome.ret.injEq, Prod.mk.injEq] at hr
    rw [← hr.1]; exact h
  · rw [h1] at hr; cases hr
  · rw [h1] at hr
    simp only [Outcome.ret.injEq, Prod.mk.injEq] at hr
    rw [← hr.1]; exact h
  · rw [h1] at hr
    simp only [Outcome.ret.injEq, Prod.mk.injEq] at hr
    rw [← hr.1]
    intro Q b hQ
    have hQ' : (s.files.del (Clean path)).get Q = some b := hQ
    obtain ⟨-, hQ'⟩ := Map.get_del_some _ _ _ _ hQ'
    obtain ⟨hf, hinj⟩ := h Q b hQ'
    refine ⟨hf, ?_⟩
    intro Q2 hQ2
    have hQ2' : (s.files.del (Clean path)).get Q2 = some b := hQ2
    exact hinj Q2 (Map.get_del_some _ _ _ _ hQ2').2

theorem NameSync_of_Reachable (s : storage) (h : Reachable s) : NameSync s := by
  induction h with
  | empty =>
    intro Q a hQ
    cases hQ
  | new s s1 path mode flag r e _ hn ih => exact NameSync_New s path mode flag s1 r e ih hn
  | rename s s1 order pfrom pto e _ _ hr ih =>
    exact RenameIn_preserves NameSync
      (fun s' pf pt s1' e' hI _ hm => NameSync_move s' pf pt s1' e' hI hm)
      order s pfrom pto s1 e ih hr
  | remove s s1 path e _ hr ih => exact NameSync_Remove s path s1 e ih hr

end storage

/-- C18: the name stays in sync with the path.  In every store reachable from
the empty store by calls of `New`, `Rename` (in any enumeration order) and
`Remove` that return, every node stored under a key `Q` of `files` has
`BaseFilename` equal to `Base(Q)`. -/
theorem C18_name_in_sync (s : storage) (h : storage.Reachable s) (Q : List Char) (a : Addr)
    (hQ : s.files.get Q = some a) :
    ∃ f, s.heap.get? a = some f ∧ f.BaseFilename = Base Q :=
  (storage.NameSync_of_Reachable s h Q a hQ).1

theorem Split_noslash (c : List Char) (h : '/' ∉ c) : Split c = ([], c) := by
  unfold Split
  have hall : ∀ x ∈ c.reverse, (fun ch : Char => decide (ch ≠ '/')) x = true := by
    intro x hx
    simp only [decide_eq_true_eq]
    intro hx'
    subst hx'
    exact h (List.mem_reverse.mp hx)
  rw [List.dropWhile_eq_nil_iff.mpr hall, List.takeWhile_eq_self_iff.mpr hall]
  simp

theorem RelCanon_elem (out : List (List Char)) (h : RelCanon out) :
    ∀ c ∈ out, c ≠ [] ∧ '/' ∉ c ∧ c ≠ ['.'] := by
  obtain ⟨k, regs, rfl, hr⟩ := h
  intro c hc
  rcases List.mem_append.mp hc with hc | hc
  · rw [List.eq_of_mem_replicate hc]; decide
  · exact ⟨(hr c hc).1, (hr c hc).2.2.2, (hr c hc).2.1⟩

theorem RelCanon_init (init : List (List Char)) (c : List Char) (h : RelCanon (init ++ [c])) :
    RelCanon init := by
  obtain ⟨k, regs, he, hr⟩ := h
  rcases List.eq_nil_or_concat regs with hn | ⟨r0, x, hn⟩
  · subst hn
    rw [List.append_nil] at he
    cases k with
    | zero => simp at he
    | succ k =>
      rw [List.replicate_succ'] at he
      have := List.append_inj' he rfl
      exact ⟨k, [], by rw [this.1]; simp, by simp⟩
  · rw [List.concat_eq_append] at hn
    subst hn
    rw [← List.append_assoc] at he
    have := List.append_inj' he rfl
    exact ⟨k, r0, this.1, fun e he' => hr e (List.mem_append_left _ he')⟩

theorem foldl_cleanStep_rel (out : List (List Char)) (h : RelCanon out) :
    (out.foldl (cleanStep false) ([], 0)).1 = out := by
  obtain ⟨k, regs, rfl, hr⟩ := h
  rw [List.foldl_append]
  have := foldl_cleanStep_dotdot 0 k
  simp only [List.replicate_zero, Nat.zero_add] at this
  rw [this, foldl_cleanStep_regular _ _ _ _ hr]

/-- A canonical relative path is a fixed point of `Clean`. -/
theorem Clean_joinSep_rel (out : List (List Char)) (hne : out ≠ []) (h : RelCanon out) :
    Clean (joinSep out) = joinSep out := by
  have hel := RelCanon_elem out h
  have hj := joinSep_ne_nil out hne (fun c hc => (hel c hc).1)
  have hh := joinSep_head out hne (fun c hc => ⟨(hel c hc).1, (hel c hc).2.1⟩)
  unfold Clean
  simp only [hj, if_false, hh, decide_False]
  rw [splitSep_joinSep out hne (fun c hc => (hel c hc).2.1), foldl_cleanStep_rel out h]
  simp [hne]

theorem Dir_joinSep_snoc (init : List (List Char)) (c : List Char) (hne : init ≠ [])
    (h : RelCanon (init ++ [c])) : Dir (joinSep (init ++ [c])) = joinSep init := by
  have hi := RelCanon_init init c h
  have hel := RelCanon_elem init hi
  have hc := RelCanon_elem _ h c (by simp)
  have hj := joinSep_ne_nil init hne (fun c hc => (hel c hc).1)
  have hh := joinSep_head init hne (fun c hc => ⟨(hel c hc).1, (hel c hc).2.1⟩)
  unfold Dir
  rw [joinSep_append_singleton init c hne, Split_append_slash _ _ hc.2.1]
  have hj2 : joinSep init ++ ['/'] ≠ [] := by simp
  have hh2 : (joinSep init ++ ['/']).head? ≠ some '/' := by
    rw [List.head?_append_of_ne_nil _ hj]
    exact hh
  unfold Clean
  simp only [hj2, if_false, hh2, decide_False]
  rw [splitSep_append_slash, splitSep_joinSep init hne (fun c hc => (hel c hc).2.1),
    List.foldl_append]
  have hf : init.foldl (cleanStep false) ([], 0)
      = ((init.foldl (cleanStep false) ([], 0)).1, (init.foldl (cleanStep false) ([], 0)).2) :=
    rfl
  simp only [splitSep, List.foldl_cons, List.foldl_nil, cleanStep_nil]
  rw [foldl_cleanStep_rel init hi]
  simp [hne]

theorem Dir_single (c : List Char) (h : '/' ∉ c) : Dir c = ['.'] := by
  unfold Dir
  rw [Split_noslash c h]
  show Clean [] = ['.']
  decide

/-- Shape of a cleaned path: absolute, the dot, or relative with elements. -/
theorem Clean_shape (p : List Char) :
    (∃ cs, (∀ c ∈ cs, Regular c) ∧ Clean p = render cs) ∨ Clean p = ['.'] ∨
    (∃ out, out ≠ [] ∧ RelCanon out ∧ Clean p = joinSep out) := by
  by_cases hp : p = []
  · subst hp; exact Or.inr (Or.inl (by decide))
  by_cases hr : p.head? = some '/'
  · exact Or.inl (Clean_rooted p hr)
  · obtain ⟨regs, h1, h2, -⟩ := clean_scan_inv false p
    have hC : Clean p = if ((splitSep p).foldl (cleanStep false) ([], 0)).1 = [] then ['.']
        else joinSep ((splitSep p).foldl (cleanStep false) ([], 0)).1 := by
      unfold Clean
      simp only [hp, if_false, hr, decide_False]
      rfl
    generalize (splitSep p).foldl (cleanStep false) ([], 0) = st at h1 hC
    by_cases hout : st.1 = []
    · rw [hC, if_pos hout]; exact Or.inr (Or.inl rfl)
    · rw [hC, if_neg hout]
      exact Or.inr (Or.inr ⟨st.1, hout, ⟨st.2, regs, h1, h2⟩, rfl⟩)

namespace storage

theorem NewAux_succ_no_fuel (n : Nat) (s : storage) (p : List Char) (mode : Nat) (flag : Int)
    (h : s.files.get (Clean p) = none →
      createParentAux n
        { s with heap := s.heap ++ [{ BaseFilename := Base (Clean p), content := ⟨[]⟩,
                                      mode := mode, flag := flag }],
                 files := s.files.set (Clean p) s.heap.length }
        (Clean p) mode s.heap.length ≠ Outcome.outOfFuel) :
    NewAux (n + 1) s p mode flag ≠ Outcome.outOfFuel := by
  cases h1 : s.files.get (Clean p) with
  | none =>
    rw [NewAux_fresh n s p mode flag h1]
    have := h h1
    split
    · simp
    · simp
    · rename_i heq
      exact absurd heq this
  | some a =>
    cases h2 : s.heap.get? a with
    | none => rw [NewAux_dangling n s p mode flag a h1 h2]; simp
    | some f =>
      rw [NewAux_stored n s p mode flag a f h1 h2]
      split <;> simp

theorem createParentAux_succ_no_fuel (n : Nat) (s : storage) (path : List Char) (mode : Nat)
    (f : Addr)
    (h : NewAux n s (Clean (Dir path)) (Perm mode ||| ModeDir) 0 ≠ Outcome.outOfFuel) :
    createParentAux (n + 1) s path mode f ≠ Outcome.outOfFuel := by
  unfold createParentAux
  cases hf : s.heap.get? f with
  | none => simp
  | some fr =>
    by_cases hname : fr.BaseFilename = separator
    · simp only [hname, if_true]
      simp
    · simp only [hname, if_false]
      cases hnew : NewAux n s (Clean (Dir path)) (Perm mode ||| ModeDir) 0 with
      | panic => simp
      | outOfFuel => exact absurd hnew h
      | ret x =>
        obtain ⟨s2, r, oe⟩ := x
        cases oe with
        | some err => simp
        | none =>
          simp only
          cases hc : s2.children.get (Clean (Dir path)) with
          | none => simp
          | some o =>
            cases o with
            | none => simp
            | some m => simp

theorem Term_step (k : Nat) (q : List Char) (hq : Clean q = q) (h : Term k (Clean (Dir q))) :
    Term (k + 2) q := by
  intro n hn s mode flag
  obtain ⟨m, rfl⟩ : ∃ m, n = m + 2 := ⟨n - 2, by omega⟩
  apply NewAux_succ_no_fuel
  intro _
  apply createParentAux_succ_no_fuel
  rw [hq]
  exact h m (by omega) _ _ _

theorem Term_root : Term 2 ['/'] := by
  intro n hn s mode flag
  obtain ⟨m, rfl⟩ : ∃ m, n = m + 2 := ⟨n - 2, by omega⟩
  have hC : Clean ['/'] = ['/'] := by decide
  cases h1 : s.files.get (Clean ['/']) with
  | none =>
    rw [NewAux_fresh (m + 1) s _ mode flag h1, hC]
    rw [createParentAux_root m _ _ mode s.heap.length
      { BaseFilename := Base ['/'], content := ⟨[]⟩, mode := mode, flag := flag }
      (by simp) (Base_root : Base ['/'] = separator)]
    simp
  | some a =>
    cases h2 : s.heap.get? a with
    | none => rw [NewAux_dangling (m + 1) s _ mode flag a h1 h2]; simp
    | some f =>
      rw [NewAux_stored (m + 1) s _ mode flag a f h1 h2]
      split <;> simp

theorem Term_dot : Term 3 ['.'] := by
  intro n hn s mode flag
  obtain ⟨m, rfl⟩ : ∃ m, n = m + 3 := ⟨n - 3, by omega⟩
  have hC : Clean ['.'] = ['.'] := by decide
  have hD : Clean (Dir ['.']) = ['.'] := by decide
  apply NewAux_succ_no_fuel
  intro _
  apply createParentAux_succ_no_fuel
  rw [hC, hD]
  -- the second call on `.` finds the node that the first call stored
  apply NewAux_succ_no_fuel
  intro hnone
  rw [hC] at hnone
  have hset : (s.files.set ['.'] s.heap.length).get ['.'] = some s.heap.length :=
    Map.get_set_self _ _ _
  rw [hset] at hnone
  cases hnone

theorem Term_render (cs : List (List Char)) (h : ∀ c ∈ cs, Regular c) :
    Term (2 * cs.length + 2) (render cs) := by
  induction cs using List.reverseRecOn with
  | nil => exact Term_root
  | append_singleton init c ih =>
    have hreg : ∀ x ∈ init, Regular x := fun x hx => h x (List.mem_append_left _ hx)
    have hstep := Term_step (2 * init.length + 2) (render (init ++ [c])) (Clean_render _ h)
      (by
        rw [Dir_render_snoc init c hreg (h c (by simp)).2.2.2, Clean_render init hreg]
        exact ih hreg)
    have e : 2 * (init ++ [c]).length + 2 = 2 * init.length + 2 + 2 := by simp; omega
    rw [e]
    exact hstep

theorem Term_joinSep (out : List (List Char)) (hne : out ≠ []) (h : RelCanon out) :
    Term (2 * out.length + 3) (joinSep out) := by
  induction out using List.reverseRecOn with
  | nil => exact absurd rfl hne
  | append_singleton init c ih =>
    have hc := RelCanon_elem _ h c (by simp)
    have e : 2 * (init ++ [c]).length + 3 = 2 * init.length + 3 + 2 := by simp; omega
    rw [e]
    apply Term_step _ _ (Clean_joinSep_rel _ hne h)
    by_cases hi : init = []
    · subst hi
      have hD : Clean (Dir (joinSep ([] ++ [c]))) = ['.'] := by
        show Clean (Dir c) = ['.']
        rw [Dir_single c hc.2.1]
        decide
      rw [hD]
      exact Term_dot
    · rw [Dir_joinSep_snoc init c hi h, Clean_joinSep_rel init hi (RelCanon_init init c h)]
      exact ih hi (RelCanon_init init c h)

theorem Term_mono (k k2 : Nat) (q : List Char) (hk : k ≤ k2) (h : Term k q) : Term k2 q :=
  fun n hn => h n (le_trans hk hn)

/-- More fuel does not change a run that did not run out of fuel. -/
theorem fuel_succ (n : Nat) :
    (∀ s p mode flag, NewAux n s p mode flag ≠ Outcome.outOfFuel →
      NewAux (n + 1) s p mode flag = NewAux n s p mode flag) ∧
    (∀ s path mode f, createParentAux n s path mode f ≠ Outcome.outOfFuel →
      createParentAux (n + 1) s path mode f = createParentAux n s path mode f) := by
  induction n with
  | zero =>
    constructor
    · intro s p mode flag h
      exact absurd rfl h
    · intro s path mode f h
      exact absurd rfl h
  | succ n ih =>
    constructor
    · intro s p mode flag h
      cases h1 : s.files.get (Clean p) with
      | none =>
        rw [NewAux_fresh n s p mode flag h1] at h
        rw [NewAux_fresh (n + 1) s p mode flag h1, NewAux_fresh n s p mode flag h1]
        rw [ih.2]
        intro hcp
        rw [hcp] at h
        exact h rfl
      | some a =>
        cases h2 : s.heap.get? a with
        | none =>
          rw [NewAux_dangling (n + 1) s p mode flag a h1 h2,
            NewAux_dangling n s p mode flag a h1 h2]
        | some f =>
          rw [NewAux_stored (n + 1) s p mode flag a f h1 h2,
            NewAux_stored n s p mode flag a f h1 h2]
    · intro s path mode f h
      have hnew : NewAux n s (Clean (Dir path)) (Perm mode ||| ModeDir) 0 ≠ Outcome.outOfFuel ∨
          createParentAux (n + 1) s path mode f = createParentAux (n + 2) s path mode f := by
        by_cases hn : NewAux n s (Clean (Dir path)) (Perm mode ||| ModeDir) 0
            = Outcome.outOfFuel
        · right
          unfold createParentAux at h ⊢
          cases hf : s.heap.get? f with
          | none => rfl
          | some fr =>
            by_cases hname : fr.BaseFilename = separator
            · simp only [hname, if_true]
            · simp only [hf, hname, if_false, hn] at h
              exact absurd rfl h
        · exact Or.inl hn
      rcases hnew with hn | he
      · have := ih.1 s (Clean (Dir path)) (Perm mode ||| ModeDir) 0 hn
        conv_lhs => unfold createParentAux
        conv_rhs => unfold createParentAux
        simp only [this]
      · exact he.symm

theorem fuel_le (n m : Nat) (hnm : n ≤ m) (s : storage) (p : List Char) (mode : Nat)
    (flag : Int) (h : NewAux n s p mode flag ≠ Outcome.outOfFuel) :
    NewAux m s p mode flag = NewAux n s p mode flag := by
  induction m with
  | zero =>
    have : n = 0 := by omega
    subst this; rfl
  | succ m ih =>
    by_cases hn : n = m + 1
    · subst hn; rfl
    · have h1 := ih (by omega)
      rw [(fuel_succ m).1 s p mode flag (by rw [h1]; exact h), h1]

end storage

theorem ancestors_length_le (n : Nat) (p : List Char) : (ancestors n p).length ≤ n := by
  induction n generalizing p with
  | zero => simp [ancestors]
  | succ n ih =>
    unfold ancestors
    split
    · simp
    · simp only [List.length_cons]
      have := ih (Dir p)
      omega

theorem ancestors_render (cs : List (List Char)) (h : ∀ c ∈ cs, Regular c) (n : Nat)
    (hn : cs.length ≤ n) : cs.length ≤ (ancestors n (render cs)).length := by
  induction cs using List.reverseRecOn generalizing n with
  | nil => simp
  | append_singleton init c ih =>
    have hreg : ∀ x ∈ init, Regular x := fun x hx => h x (List.mem_append_left _ hx)
    obtain ⟨m, rfl⟩ : ∃ m, n = m + 1 := ⟨n - 1, by simp at hn; omega⟩
    unfold ancestors
    rw [Dir_render_snoc init c hreg (h c (by simp)).2.2.2]
    rw [if_neg (render_ne_of_proper init [c] h (by simp))]
    simp only [List.length_cons, List.length_append, List.length_nil, zero_add,
      add_le_add_iff_right]
    exact ih hreg m (by simp at hn; omega)

theorem length_le_joinSep_of_ne (es : List (List Char)) (h : ∀ c ∈ es, c ≠ []) :
    es.length ≤ (joinSep es).length := by
  induction es with
  | nil => simp
  | cons e es ih =>
    have he : 0 < e.length := List.length_pos.mpr (h e (by simp))
    cases es with
    | nil => simpa [joinSep] using he
    | cons e' es' =>
      have := ih (fun c hc => h c (List.mem_cons_of_mem _ hc))
      rw [joinSep_cons_cons]
      simp only [List.length_cons, List.length_append] at this ⊢
      omega

theorem ancestors_joinSep (out : List (List Char)) (hne : out ≠ []) (h : RelCanon out)
    (n : Nat) (hn : out.length ≤ n) : out.length ≤ (ancestors n (joinSep out)).length := by
  induction out using List.reverseRecOn generalizing n with
  | nil => exact absurd rfl hne
  | append_singleton init c ih =>
    have hc := RelCanon_elem _ h c (by simp)
    obtain ⟨m, rfl⟩ : ∃ m, n = m + 1 := ⟨n - 1, by simp at hn; omega⟩
    unfold ancestors
    by_cases hi : init = []
    · subst hi
      have hD : Dir (joinSep ([] ++ [c])) = ['.'] := Dir_single c hc.2.1
      rw [hD, if_neg (by
        intro e
        exact hc.2.2 (by simpa [joinSep] using e.symm))]
      simp
    · rw [Dir_joinSep_snoc init c hi h]
      have hlen : joinSep init ≠ joinSep (init ++ [c]) := by
        intro e
        have := congrArg List.length e
        rw [joinSep_append_singleton init c hi] at this
        simp at this
      rw [if_neg hlen]
      simp only [List.length_cons, List.length_append, List.length_nil, zero_add,
        add_le_add_iff_right]
      exact ih hi (RelCanon_init init c h) m (by simp at hn; omega)

namespace storage

theorem New_of_Term (k : Nat) (s : storage) (path : List Char) (mode : Nat) (flag : Int)
    (h : Term k (Clean path)) (hk : k ≤ fuelFor path) :
    s.New path mode flag ≠ Outcome.outOfFuel ∧
    ∀ n, k ≤ n → NewAux n s path mode flag = s.New path mode flag := by
  have hk0 : NewAux k s path mode flag ≠ Outcome.outOfFuel := by
    rw [NewAux_clean]
    exact h k (le_refl _) s mode flag
  have hnew : s.New path mode flag = NewAux k s path mode flag :=
    fuel_le k (fuelFor path) hk s path mode flag hk0
  refine ⟨by rw [hnew]; exact hk0, ?_⟩
  intro n hn
  rw [hnew]
  exact fuel_le k n hn s path mode flag hk0

end storage

/-- C19, with the call count that the code has: `New` terminates on every
input.  A run of the mutual recursion `New -> createParent -> New` with fuel
`2 * N` makes at most `N` calls of `New`.  For every store and every path
(absolute, relative or empty), `New` returns or panics, and its result is that
of every run whose fuel allows one call of `New` for the path, one for each
proper ancestor of the canonical path (each `Dir` step up to `/` or `.`) and
one more; for a path that begins with the separator the last one is not
needed. -/
theorem C19_new_terminates (s : storage) (path : List Char) (mode : Nat) (flag : Int) :
    s.New path mode flag ≠ Outcome.outOfFuel ∧
    (∀ n, 2 * ((properAncestors (Clean path)).length + 2) ≤ n →
      storage.NewAux n s path mode flag = s.New path mode flag) ∧
    (path.head? = some '/' →
      ∀ n, 2 * ((properAncestors (Clean path)).length + 1) ≤ n →
        storage.NewAux n s path mode flag = s.New path mode flag) := by
  have hA : (properAncestors (Clean path)).length ≤ (Clean path).length :=
    ancestors_length_le _ _
  have hfuel : 2 * ((properAncestors (Clean path)).length + 2) ≤ storage.fuelFor path := by
    unfold storage.fuelFor; omega
  have habs : ∀ cs, (∀ c ∈ cs, Regular c) → Clean path = render cs →
      storage.Term (2 * ((properAncestors (Clean path)).length + 1)) (Clean path) := by
    intro cs hreg hcl
    have hlow : cs.length ≤ (properAncestors (Clean path)).length := by
      rw [hcl]
      exact ancestors_render cs hreg _ (length_le_render cs)
    apply storage.Term_mono (2 * cs.length + 2) _ _ (by omega)
    rw [hcl]
    exact storage.Term_render cs hreg
  have hall : storage.Term (2 * ((properAncestors (Clean path)).length + 2)) (Clean path) := by
    rcases Clean_shape path with ⟨cs, hreg, hcl⟩ | hdot | ⟨out, hne, hrel, hcl⟩
    · exact storage.Term_mono _ _ _ (by omega) (habs cs hreg hcl)
    · rw [hdot]
      exact storage.Term_mono 3 _ _ (by omega) storage.Term_dot
    · have hlow : out.length ≤ (properAncestors (Clean path)).length := by
        rw [hcl]
        exact ancestors_joinSep out hne hrel _
          (length_le_joinSep_of_ne out (fun c hc => (RelCanon_elem out hrel c hc).1))
      apply storage.Term_mono (2 * out.length + 3) _ _ (by omega)
      rw [hcl]
      exact storage.Term_joinSep out hne hrel
  refine ⟨(storage.New_of_Term _ s path mode flag hall hfuel).1,
    (storage.New_of_Term _ s path mode flag hall hfuel).2, ?_⟩
  intro hroot
  obtain ⟨cs, hreg, hcl⟩ := Clean_rooted path hroot
  exact (storage.New_of_Term _ s path mode flag (habs cs hreg hcl) (by omega)).2

/-- C19 at the relative path `a/b` on the empty store: fuel for four calls. -/
theorem C19_new_terminates_witness :
    2 * ((properAncestors (Clean "a/b".toList)).length + 2) ≤ 8 ∧
    newStorage.New "a/b".toList 0o644 0 ≠ Outcome.outOfFuel ∧
    storage.NewAux 8 newStorage "a/b".toList 0o644 0 = newStorage.New "a/b".toList 0o644 0 :=
  ⟨by decide, (C19_new_terminates newStorage "a/b".toList 0o644 0).1,
    (C19_new_terminates newStorage "a/b".toList 0o644 0).2.1 8 (by decide)⟩

/-- C12 at the file `/x` of `staleStore`, addressed as `/x/`. -/
theorem C12_remove_contract_witness :
    staleStore.files.get (Clean "/x/".toList) = some 0 ∧
    ∃ s1, staleStore.Remove "/x/".toList = Outcome.ret (s1, none) ∧
      s1.Has (Clean "/x/".toList) = false ∧ s1.heap = staleStore.heap ∧
      (s1.children.get (Dir (Clean "/x/".toList))).join.bind
        (fun m => m.get (Split (Clean "/x/".toList)).2) = none ∧
      (Clean "/x/".toList ≠ ['/'] → (Split (Clean "/x/".toList)).2 = Base (Clean "/x/".toList)) ∧
      (∀ q, q ≠ Clean "/x/".toList → s1.files.get q = staleStore.files.get q) ∧
      (∀ P name, P ≠ Dir (Clean "/x/".toList) ∨ name ≠ (Split (Clean "/x/".toList)).2 →
        (s1.children.get P).join.bind (fun m => m.get name)
          = (staleStore.children.get P).join.bind (fun m => m.get name)) :=
  ⟨by decide,
    ((C12_remove_contract staleStore "/x/".toList).2.2 0
      { BaseFilename := "x".toList, content := ⟨[]⟩, mode := 0o644, flag := 0 }
      (by decide) (by decide)).2.2 (by decide)⟩

/-- C18 at the node moved to `/x` in `staleStore`. -/
theorem C18_name_in_sync_witness :
    storage.Reachable staleStore ∧ staleStore.files.get "/x".toList = some 0 ∧
    ∃ f, staleStore.heap.get? 0 = some f ∧ f.BaseFilename = Base "/x".toList :=
  have h : storage.Reachable staleStore :=
    storage.Reachable.rename dirFileStore staleStore dirFileStore.files.keys
      "/d/a".toList "/x".toList none
      (storage.Reachable.new newStorage dirFileStore "/d/a".toList 0o644 0 (some 0) none
        storage.Reachable.empty (by decide))
      (List.Perm.refl _) (by decide)
  ⟨h, by decide, C18_name_in_sync staleStore h "/x".toList 0 (by decide)⟩

/-! ## Concrete runs of `Rename`, `Remove` and `New` -/

/-- C11: `Rename` below a regular file two levels up.  On the store reached by
`New("/a", file)` and `New("/c", file)` the grandparent `/a` of `/a/b/c` is a
regular file, so the ancestors of `/a/b/c` cannot be synthesized; all the same
`Rename("/c", "/a/b/c")` returns a nil error in every enumeration order (`New`
drops the error of `createParent` for `/a/b`), whereas with the regular file
as the parent, `Rename("/c", "/a/c")`, the error is returned. -/
theorem C11_rename_grandparent_file :
    (newStorage.New "/a".toList 0o644 0).bind (fun r => r.1.New "/c".toList 0o644 0)
        = Outcome.ret (twoFilesStore, some 2, none) ∧
      twoFilesStore.Has "/c".toList = true ∧
      Dir (Dir "/a/b/c".toList) = "/a".toList ∧
      twoFilesStore.Get "/a".toList = some 0 ∧
      (twoFilesStore.heap.get? 0).map (fun f => IsDir f.mode) = some false ∧
      twoFilesStore.files.keys.permutations'.all
        (fun order => decide
          ((storage.RenameIn order twoFilesStore "/c".toList "/a/b/c".toList).errOf = some none))
        = true ∧
      twoFilesStore.files.keys.permutations'.all
        (fun order => decide
          ((storage.RenameIn order twoFilesStore "/c".toList "/a/c".toList).errOf
            = some (some (Err.AlreadyExists "/a".toList)))) = true := by
  refine ⟨by decide, by decide, by decide, by decide, by decide, by decide, by decide⟩

/-- C13: `Remove` of a directory whose only child was moved away.  On the store
reached by `New("/d/a", file)` and `Rename("/d/a", "/x")` the directory `/d` is
stored and no stored node has `/d` as its parent path, yet `Remove("/d")` fails
with the directory-not-empty error and leaves `/d` stored: `move` left the
entry `a` in `children["/d"]`. -/
theorem C13_remove_after_move_away :
    ((newStorage.New "/d/a".toList 0o644 0).bind
        (fun r => r.1.Rename "/d/a".toList "/x".toList)) = Outcome.ret (staleStore, none) ∧
      staleStore.Get "/d".toList = some 1 ∧
      (staleStore.heap.get? 1).map (fun f => IsDir f.mode) = some true ∧
      staleStore.files.keys.all (fun q => decide (Dir q ≠ "/d".toList)) = true ∧
      staleStore.Remove "/d".toList
        = Outcome.ret (staleStore, some (Err.NotEmpty "/d".toList)) := by
  refine ⟨by decide, by decide, by decide, by decide, by decide⟩

/-- C14: a stored node that its parent does not list.  On the store reached by
`New("/a", file)` and `New("/a/b", file)` the node stored at `/a/b` is named `b`
and has parent path `/a`, but `children["/a"]` has no entry at all. -/
theorem C14_node_not_listed :
    (newStorage.New "/a".toList 0o644 0).bind (fun r => r.1.New "/a/b".toList 0o644 0)
        = Outcome.ret (underFileStore, some 2, none) ∧
      underFileStore.files.get "/a/b".toList = some 2 ∧
      (underFileStore.heap.get? 2).map (fun f => f.BaseFilename) = some "b".toList ∧
      Dir "/a/b".toList = "/a".toList ∧
      underFileStore.children.get "/a".toList = none := by
  refine ⟨by decide, by decide, by decide, by decide, by decide⟩

/-- C15: a listed node that is no longer stored there.  On the store reached
by `New("/d/a", file)` and `Rename("/d/a", "/x")` the entry
`children["/d"]["a"]` still holds the moved node, while nothing is stored at
`Join("/d", "a") = "/d/a"`; `Children("/d")` lists the node now stored at `/x`. -/
theorem C15_stale_children_entry :
    ((newStorage.New "/d/a".toList 0o644 0).bind
        (fun r => r.1.Rename "/d/a".toList "/x".toList)) = Outcome.ret (staleStore, none) ∧
      (staleStore.children.get "/d".toList).join.bind (fun m => m.get "a".toList) = some 0 ∧
      Join "/d".toList "a".toList = "/d/a".toList ∧
      staleStore.files.get "/d/a".toList = none ∧
      staleStore.files.get "/x".toList = some 0 ∧
      staleStore.Children "/d".toList = [0] := by
  refine ⟨by decide, by decide, by decide, by decide, by decide, by decide⟩

set_option maxHeartbeats 1600000 in
/-- C17: the result of `Rename` depends on the order of the descendants.
On the store reached by `New("/a/f", file)`, `New("/a/f/x", file)` and
`New("/a/g", file)`, `Rename("/a", "/b")` with `/a/f` enumerated before `/a/f/x`
returns the already-exists error for `/b/f` and leaves `/a/g` in place; with
`/a/f/x` enumerated before `/a/f` it returns nil and `/a/g` is moved.  On the
store reached by `New("/a/b/c", file)`, `Rename("/a", "/a/b")` returns nil in
both orders of `/a/b` and `/a/b/c`, but `Children("/a/b/b")` differs. -/
theorem C17_rename_order_dependent :
    ((newStorage.New "/a/f".toList 0o644 0).bind
        (fun r => r.1.New "/a/f/x".toList 0o644 0)).bind
        (fun r => r.1.New "/a/g".toList 0o644 0) = Outcome.ret (nestedFileStore, some 4, none) ∧
      List.Perm ["/a/f".toList, "/a/f/x".toList, "/a/g".toList, "/a".toList, "/".toList]
        nestedFileStore.files.keys ∧
      List.Perm ["/a/f/x".toList, "/a/f".toList, "/a/g".toList, "/a".toList, "/".toList]
        nestedFileStore.files.keys ∧
      (storage.RenameIn
        ["/a/f".toList, "/a/f/x".toList, "/a/g".toList, "/a".toList, "/".toList]
        nestedFileStore "/a".toList "/b".toList).errOf
        = some (some (Err.AlreadyExists "/b/f".toList)) ∧
      ((storage.RenameIn
        ["/a/f".toList, "/a/f/x".toList, "/a/g".toList, "/a".toList, "/".toList]
        nestedFileStore "/a".toList "/b".toList).storeOf.map
          (fun s => s.Has "/a/g".toList)) = some true ∧
      (storage.RenameIn
        ["/a/f/x".toList, "/a/f".toList, "/a/g".toList, "/a".toList, "/".toList]
        nestedFileStore "/a".toList "/b".toList).errOf = some none ∧
      ((storage.RenameIn
        ["/a/f/x".toList, "/a/f".toList, "/a/g".toList, "/a".toList, "/".toList]
        nestedFileStore "/a".toList "/b".toList).storeOf.map
          (fun s => s.Has "/a/g".toList)) = some false ∧
      newStorage.New "/a/b/c".toList 0o644 0 = Outcome.ret (deepStore, some 0, none) ∧
      List.Perm ["/a/b".toList, "/a/b/c".toList, "/a".toList, "/".toList]
        deepStore.files.keys ∧
      List.Perm ["/a/b/c".toList, "/a/b".toList, "/a".toList, "/".toList]
        deepStore.files.keys ∧
      ((storage.RenameIn ["/a/b".toList, "/a/b/c".toList, "/a".toList, "/".toList]
        deepStore "/a".toList "/a/b".toList).storeOf.map
          (fun s => s.Children "/a/b/b".toList)) = some [1, 0] ∧
      ((storage.RenameIn ["/a/b/c".toList, "/a/b".toList, "/a".toList, "/".toList]
        deepStore "/a".toList "/a/b".toList).storeOf.map
          (fun s => s.Children "/a/b/b".toList)) = some [5] := by
  refine ⟨by decide, by decide, by decide, by decide, by decide, by decide, by decide, by decide,
    by decide, by decide, by decide, by decide⟩

/-- C20: `Rename` of a path onto itself.  On the store reached by
`New("/a", file)`, `Rename("/a", "/a")` does not return in any enumeration
order: `move` assigns `files["/a"]` to itself, deletes it, and `createParent`
dereferences the nil pointer it is handed. -/
theorem C20_rename_onto_itself :
    newStorage.New "/a".toList 0o644 0 = Outcome.ret (singleFileStore, some 0, none) ∧
      singleFileStore.Has "/a".toList = true ∧
      singleFileStore.files.keys.permutations'.all
        (fun order => decide
          (storage.RenameIn order singleFileStore "/a".toList "/a".toList = Outcome.panic))
        = true := by
  refine ⟨by decide, by decide, by decide⟩

/-- C12 read with `Base` fails at the root: on a store whose root is a regular
file listed under the name `/` in `children["/"]`, `Remove("/")` succeeds and
that entry, the one under `Base("/")` in `children[Dir("/")]`, is still there. -/
theorem C12_root_entry_kept :
    Clean "/".toList = "/".toList ∧ Dir "/".toList = "/".toList ∧
      Base "/".toList = "/".toList ∧
      (rootFileStore.Remove "/".toList).errOf = some none ∧
      (rootFileStore.Remove "/".toList).storeOf.bind
        (fun s => (s.children.get (Dir "/".toList)).join.bind
          (fun m => m.get (Base "/".toList))) = some 0 := by
  refine ⟨by decide, by decide, by decide, by decide, by decide⟩

/-- C19 with one call per ancestor fails on a relative path: `a` has the single
proper ancestor `.`, but fuel for two calls of `New` (the path and its ancestor)
is used up, the run needs a third call (a second one on `.`); for the absolute
path `/a` two calls suffice. -/
theorem C19_relative_needs_extra_call :
    properAncestors (Clean "a".toList) = [".".toList] ∧
      storage.NewAux (2 * ((properAncestors (Clean "a".toList)).length + 1)) newStorage
        "a".toList 0o644 0 = Outcome.outOfFuel ∧
      properAncestors (Clean "/a".toList) = ["/".toList] ∧
      (storage.NewAux (2 * ((properAncestors (Clean "/a".toList)).length + 1)) newStorage
        "/a".toList 0o644 0).storeOf.isSome = true := by
  refine ⟨by decide, by decide, by decide, by decide⟩

end Memfs
